import Mathlib

/-!
Verification of the mongothon schema/validation/defaulting engine and the
change-tracking document model, as a shallow embedding of the Python source
(src/mongothon/schema.py, src/mongothon/document.py, src/schematic/__init__.py).

Python dictionaries are embedded as association lists over String keys;
Python `None` is the value `Value.vNone`; machine-level concerns (object
identity, reference cycles) are outside the embedding.  Validator functions
are embedded as total Lean functions `Value → Option String`, mirroring the
source's assumption that validators return `None` or a message and do not
raise.  Places where the Python source would raise a `TypeError`/`KeyError`/
`IndexError` on malformed schemas (outside the fragment `verify` accepts) are
totalized and marked with comments.
-/

/-- Embedding of the Python runtime values a mongothon document can hold:
scalars, `None`, nested dicts and lists.  `vObjectId` stands for
`bson.objectid.ObjectId` instances. -/
inductive Value where
  | vNone : Value
  | vInt (n : Int) : Value
  | vBool (b : Bool) : Value
  | vStr (s : String) : Value
  | vObjectId (n : Nat) : Value
  | vDoc (fields : List (String × Value)) : Value
  | vList (items : List Value) : Value

/-- Python `value is None` (the `None` singleton identity test). -/
def isNone : Value → Bool
  | .vNone => true
  | _ => false

mutual

/-- Python `==` on embedded values.  Scalars compare by value; nested dicts
and lists compare structurally (entry order of embedded dicts is part of the
embedding's representation). -/
def pyEq : Value → Value → Bool
  | .vNone, .vNone => true
  | .vInt a, .vInt b => a == b
  | .vBool a, .vBool b => a == b
  | .vStr a, .vStr b => a == b
  | .vObjectId a, .vObjectId b => a == b
  | .vDoc fs, .vDoc gs => pyEqFields fs gs
  | .vList xs, .vList ys => pyEqItems xs ys
  | _, _ => false
termination_by a _ => sizeOf a

/-- Structural comparison of embedded dict entries. -/
def pyEqFields : List (String × Value) → List (String × Value) → Bool
  | [], [] => true
  | (k, v) :: r, (k2, v2) :: r2 => k == k2 && pyEq v v2 && pyEqFields r r2
  | _, _ => false
termination_by a _ => sizeOf a

/-- Structural comparison of embedded list items. -/
def pyEqItems : List Value → List Value → Bool
  | [], [] => true
  | v :: r, v2 :: r2 => pyEq v v2 && pyEqItems r r2
  | _, _ => false
termination_by a _ => sizeOf a

end

/-- The Python classes that appear as `type` entries of field specs in this
development: `int`, `bool`, `str`, `ObjectId`, `dict`, `list`. -/
inductive PyType where
  | tInt | tBool | tStr | tObjectId | tDict | tList
deriving DecidableEq, Repr

/-- Python `isinstance(value, t)` for the embedded types.  Note that in
Python `bool` is a subclass of `int`, so `isinstance(True, int)` holds. -/
def isinstance : Value → PyType → Bool
  | .vInt _, .tInt => true
  | .vBool _, .tInt => true
  | .vBool _, .tBool => true
  | .vStr _, .tStr => true
  | .vObjectId _, .tObjectId => true
  | .vDoc _, .tDict => true
  | .vList _, .tList => true
  | _, _ => false

/-- Rendering of a type object inside error messages (the source interpolates
`"{0}".format(field_type)`; the exact Python repr is abstracted to a name). -/
def typeRepr : PyType → String
  | .tInt => "int"
  | .tBool => "bool"
  | .tStr => "str"
  | .tObjectId => "ObjectId"
  | .tDict => "dict"
  | .tList => "list"

/-- Lookup in an association list, mirroring Python `d[k]` / `k in d` on the
first matching entry. -/
def lookupKey : List (String × α) → String → Option α
  | [], _ => none
  | (k, v) :: rest, key => if k = key then some v else lookupKey rest key

/-- Python `k in d`. -/
def hasKey (l : List (String × α)) (key : String) : Bool :=
  (lookupKey l key).isSome

/-- Python `d[k] = v`: replace the first entry with the key, else append. -/
def setKey : List (String × α) → String → α → List (String × α)
  | [], key, v => [(key, v)]
  | (k, w) :: rest, key, v =>
      if k = key then (k, v) :: rest else (k, w) :: setKey rest key v

/-- Python `del d[k]` (removes every entry carrying the key; a Python dict
holds at most one). -/
def removeKey : List (String × α) → String → List (String × α)
  | [], _ => []
  | (k, w) :: rest, key =>
      if k = key then removeKey rest key else (k, w) :: removeKey rest key

/-- Python `instance.get(field, None)` as used throughout validation. -/
def pyGet (inst : List (String × Value)) (field : String) : Value :=
  (lookupKey inst field).getD .vNone

/-- True when no two entries of the association list share a key (always the
case for a genuine Python dict). -/
def nodupKeys : List (String × α) → Bool
  | [] => true
  | (k, _) :: rest => !(hasKey rest k) && nodupKeys rest

/-- Embedding of a custom validator: `value -> optional error message`
(src/mongothon/schema.py line 270, `error = fn(value)`). -/
abbrev Validator : Type := Value → Option String

/-- The `validates` entry of a field spec: a single function or a list
(src/mongothon/schema.py lines 274-278). -/
inductive Validations where
  | single (v : Validator)
  | many (vs : List Validator)

/-- The `default` entry of a field spec: a literal value or a zero-argument
callable (src/mongothon/schema.py lines 306-311). -/
inductive Dflt where
  | lit (v : Value)
  | call (f : Unit → Value)

mutual

/-- Embedding of `mongothon.Schema` (also `schematic.Schema`): the raw
`_doc_spec` mapping together with the `_strict` flag.  `Schema.__init__`'s
`_id` injection is modeled separately by `mkSchema`. -/
inductive Schema where
  | mk (docSpec : List (String × Spec)) (strict : Bool)

/-- One field's spec: a dict-based spec (which always carries a `type` and may
carry `required` / `default` / `validates`), an embedded-collection list spec
of any length (the source allows any list; `verify` constrains it), or some
other Python object (`Spec.junk`, rejected by `verify` and silently skipped
by validation, src/mongothon/schema.py lines 207-224). -/
inductive Spec where
  | dictSpec (ftype : FType) (required : Option Bool) (dflt : Option Dflt)
      (validates : Option Validations)
  | listSpec (elems : List LElem)
  | junk

/-- The `type` entry of a dict spec: a plain type or a nested Schema. -/
inductive FType where
  | prim (t : PyType)
  | schema (s : Schema)

/-- An element of an embedded-collection list spec: a type, a Schema, or some
other object (neither, e.g. an integer). -/
inductive LElem where
  | ty (t : PyType)
  | sch (s : Schema)
  | junk

end

/-- Projection of the doc spec out of a schema. -/
def docSpecList : Schema → List (String × Spec)
  | .mk ds _ => ds

/-- Projection of the strict flag out of a schema. -/
def strictFlag : Schema → Bool
  | .mk _ st => st

/-- Embedding of `Schema._append_path` (src/mongothon/schema.py lines
103-108): the empty path prefix is falsy in Python. -/
def appendPath (pfx field : String) : String :=
  if pfx = "" then field else pfx ++ "." ++ field

/-- The error collection built up by validation: a mapping from dotted field
path to message, embedded as an association list written with dict-assignment
(overwrite) semantics. -/
abbrev ErrMap : Type := List (String × String)

/-- Python `errors[path] = message`. -/
def storeErr (errors : ErrMap) (path msg : String) : ErrMap :=
  setKey errors path msg

/-- Lookup in the error map. -/
def lookupErr (errors : ErrMap) (path : String) : Option String :=
  lookupKey errors path

/-- One validator application from `Schema._validate_value`'s inner `apply`
(src/mongothon/schema.py lines 269-272): the message is recorded only when
Python finds it truthy (non-`None` and non-empty). -/
def applyValidator (fn : Validator) (value : Value) (path : String)
    (errors : ErrMap) : ErrMap :=
  match fn value with
  | some s => if s = "" then errors else storeErr errors path s
  | none => errors

/-- Running the `validates` entry (src/mongothon/schema.py lines 265-278). -/
def runValidations : Option Validations → Value → String → ErrMap → ErrMap
  | none, _, _, errors => errors
  | some (.single fn), value, path, errors => applyValidator fn value path errors
  | some (.many fns), value, path, errors =>
      fns.foldl (fun e fn => applyValidator fn value path e) errors

/-- The second loop of `Schema._validate_instance_against_schema`
(src/mongothon/schema.py lines 229-234): instance fields not declared in the
schema are an error in strict mode and only a log warning otherwise.  Note
the source consults the top-level schema's `_strict` (`self._strict`), which
is threaded through the recursion here as `strict`. -/
def checkUnexpected (instFields : List (String × Value))
    (ds : List (String × Spec)) (strict : Bool) (errors : ErrMap)
    (pfx : String) : ErrMap :=
  instFields.foldl
    (fun e kv =>
      if hasKey ds kv.1 then e
      else if strict then
        storeErr e (appendPath pfx kv.1)
          "Unexpected document field not present in schema"
      else e)
    errors

mutual

/-- Embedding of `Schema._validate_instance_against_schema`
(src/mongothon/schema.py lines 190-234). -/
def validateInstanceAgainstSchema (inst : Value) (s : Schema) (strict : Bool)
    (errors : ErrMap) (pfx : String) : ErrMap :=
  match inst with
  | .vDoc fields =>
      match s with
      | .mk ds _ =>
          let e1 := validateFields fields ds strict errors pfx
          checkUnexpected fields ds strict e1 pfx
  | _ => storeErr errors pfx "Expected instance of dict to validate against schema."
termination_by (sizeOf s, 3)

/-- The first loop of `Schema._validate_instance_against_schema`
(src/mongothon/schema.py lines 202-224), one iteration per declared field:
`value = instance.get(field, None)`, `path = append_path(prefix, field)`. -/
def validateFields (inst : List (String × Value)) (ds : List (String × Spec))
    (strict : Bool) (errors : ErrMap) (pfx : String) : ErrMap :=
  match ds with
  | [] => errors
  | (f, spec) :: rest =>
      validateFields inst rest strict
        (validateOneField (pyGet inst f) spec strict errors (appendPath pfx f))
        pfx
termination_by (sizeOf ds, 2)

/-- The body of one iteration of the declared-field loop
(src/mongothon/schema.py lines 207-224): a dict-based spec dispatches to
`_validate_value`, an embedded-collection spec checks the list shape and
walks the items (spec[0] on an empty list spec raises IndexError in Python
and is rejected by verify), any other spec is silently skipped. -/
def validateOneField (value : Value) (spec : Spec) (strict : Bool)
    (errors : ErrMap) (path : String) : ErrMap :=
  match spec with
  | .junk => errors   -- neither dict nor list: the source skips it
  | .dictSpec ftype required dflt validates =>
      validateValue value (.dictSpec ftype required dflt validates)
        strict errors path
  | .listSpec elems =>
      if isNone value then errors
      else
        match value, elems with
        | .vList items, elem :: _ =>
            validateListItems items elem strict errors path 0
        | .vList _, [] => errors
        | _, _ => storeErr errors path "Expected a list."
termination_by (sizeOf spec, 1)

/-- Embedding of `Schema._validate_value` (src/mongothon/schema.py lines
237-278).  Only ever invoked on dict-based specs (the loop above dispatches
the other spec shapes elsewhere, so they are mapped to the unchanged error
collection here). -/
def validateValue (value : Value) (spec : Spec) (strict : Bool)
    (errors : ErrMap) (path : String) : ErrMap :=
  match spec with
  | .listSpec _ => errors
  | .junk => errors
  | .dictSpec ftype required _dflt validates =>
      if isNone value then
        if required.getD false then
          storeErr errors path (path ++ " is required.")
        else errors
      else
        match ftype, value with
        | .schema s1, .vDoc _ =>
            validateInstanceAgainstSchema value s1 strict errors path
        | .schema _, _ =>
            storeErr errors path (path ++ " should be an embedded document")
        | .prim t, _ =>
            if !(isinstance value t) then
              storeErr errors path ("Field should be of type " ++ typeRepr t)
            else runValidations validates value path errors
termination_by (sizeOf spec, 0)

/-- The embedded-collection loop of `_validate_instance_against_schema`
(src/mongothon/schema.py lines 218-224), index-carrying.  The item path uses
the literal `"{0}.{1}".format(path, i)` of the source. -/
def validateListItems (items : List Value) (elem : LElem) (strict : Bool)
    (errors : ErrMap) (path : String) (i : Nat) : ErrMap :=
  match items with
  | [] => errors
  | item :: rest =>
      validateListItems rest elem strict
        (validateItemStep item elem strict errors (path ++ "." ++ toString i))
        path (i + 1)
termination_by (sizeOf elem, items.length + 1)

/-- Validation of one item of an embedded collection (src/mongothon/schema.py
lines 221-224): recurse when the declared element is a Schema, type-check
when it is a type.  (isinstance against a non-type raises TypeError in
Python; schematic's verify rejects such elements.) -/
def validateItemStep (item : Value) (elem : LElem) (strict : Bool)
    (errors : ErrMap) (instancePath : String) : ErrMap :=
  match elem with
  | .sch s1 => validateInstanceAgainstSchema item s1 strict errors instancePath
  | .ty t =>
      if !(isinstance item t) then
        storeErr errors instancePath "List item is of incorrect type"
      else errors
  | .junk => errors
termination_by (sizeOf elem, 0)

end

/-- Embedding of `ValidationException` (src/mongothon/schema.py lines 53-66):
it carries the full error map. -/
structure ValidationException where
  errors : ErrMap

/-- Embedding of `Schema.validate` (src/mongothon/schema.py lines 94-101):
collect all errors, then raise if and only if any were found.  The source
only ever reads `instance`, which the embedding reflects by taking the
instance as a pure input. -/
def validate (s : Schema) (inst : Value) : Except ValidationException Unit :=
  let errors := validateInstanceAgainstSchema inst s (strictFlag s) [] ""
  if errors.length > 0 then .error ⟨errors⟩ else .ok ()

/-- Evaluation of a default: a callable default is invoked with zero
arguments, a literal default is used as-is (src/mongothon/schema.py lines
306-311). -/
def evalDefault : Dflt → Value
  | .lit v => v
  | .call f => f ()

/-- The `field not in instance` branch of the `_apply_schema_defaults` loop
(src/mongothon/schema.py lines 305-311): apply a default when the spec is a
dict carrying one. -/
def applyAbsentDefault (f : String) (spec : Spec)
    (inst : List (String × Value)) : List (String × Value) :=
  match spec with
  | .dictSpec _ _ (some d) _ => setKey inst f (evalDefault d)
  | _ => inst

mutual

/-- Embedding of `Schema._apply_schema_defaults` (src/mongothon/schema.py
lines 281-311), entered at a schema. -/
def applySchemaDefaults (s : Schema) (inst : List (String × Value)) :
    List (String × Value) :=
  match s with
  | .mk ds _ => applyDefaultsFields ds inst
termination_by (sizeOf s, 0)

/-- The per-field loop of `_apply_schema_defaults`. -/
def applyDefaultsFields (ds : List (String × Spec))
    (inst : List (String × Value)) : List (String × Value) :=
  match ds with
  | [] => inst
  | (f, spec) :: rest => applyDefaultsFields rest (applyFieldDefault f spec inst)
termination_by (sizeOf ds, 3)

/-- One iteration of the `_apply_schema_defaults` loop for the field `f`:
a present field is never overwritten (the pass only recurses into nested
content); an absent field receives the default when the spec carries one
(`applyAbsentDefault`). -/
def applyFieldDefault (f : String) (spec : Spec)
    (inst : List (String × Value)) : List (String × Value) :=
  match lookupKey inst f with
  | some v => applyPresentField f spec v inst
  | none => applyAbsentDefault f spec inst
termination_by (sizeOf spec, 2)

/-- The `field in instance` branch of the `_apply_schema_defaults` loop
(src/mongothon/schema.py lines 289-303): recurse into a nested collection
when the value is a list and the sole declared element is a Schema, recurse
into a nested doc when the declared type is a Schema and the value a dict,
and otherwise bail out without applying a default.  (`spec['type']` on a
spec that is neither dict nor list raises KeyError in Python and is rejected
by verify.) -/
def applyPresentField (f : String) (spec : Spec) (v : Value)
    (inst : List (String × Value)) : List (String × Value) :=
  match spec, v with
  | .listSpec (.sch s1 :: _), .vList items =>
      setKey inst f (.vList (applyItemsDefaults s1 items))
  | .dictSpec (.schema s1) _ _ _, .vDoc d =>
      setKey inst f (.vDoc (applySchemaDefaults s1 d))
  | _, _ => inst
termination_by (sizeOf spec, 1)

/-- The `for item in value` recursion of `_apply_schema_defaults` (lines
294-296).  Python recurses into every item; for a non-dict item the Python
call would raise a `TypeError` (`field in item`), which is outside the
modeled fragment, so such items are left unchanged. -/
def applyItemsDefaults (s : Schema) (items : List Value) : List Value :=
  match items with
  | [] => []
  | item :: rest =>
      (match item with
       | .vDoc d => Value.vDoc (applySchemaDefaults s d)
       | v => v) :: applyItemsDefaults s rest
termination_by (sizeOf s, items.length)

end

/-- Embedding of `SchemaFormatException` (src/mongothon/schema.py lines
36-50): the message with the path already interpolated, plus the path. -/
structure SchemaFormatException where
  message : String
  path : String
deriving DecidableEq, Repr

mutual

/-- Embedding of mongothon's `Schema._verify_schema` (src/mongothon/schema.py
lines 110-133), fail-fast.  Note the source checks nothing about a
single-element list spec whose element is not a Schema: such an element is
accepted silently. -/
def verifySchemaM (s : Schema) (pfx : String) :
    Except SchemaFormatException Unit :=
  match s with
  | .mk ds _ => verifyFieldsM ds pfx
termination_by (sizeOf s, 0)

/-- The per-field loop of mongothon's `_verify_schema`. -/
def verifyFieldsM (ds : List (String × Spec)) (pfx : String) :
    Except SchemaFormatException Unit :=
  match ds with
  | [] => .ok ()
  | (f, spec) :: rest =>
      let path := appendPath pfx f
      match spec with
      | .dictSpec ftype required dflt validates =>
          match verifyFieldSpecM ftype required dflt validates path with
          | .error err => .error err
          | .ok _ => verifyFieldsM rest pfx
      | .listSpec elems =>
          if elems.length = 0 ∨ elems.length > 1 then
            .error ⟨"Exactly one type must be declared for the embedded collection at "
                      ++ path, path⟩
          else
            match elems with
            | .sch s1 :: _ =>
                match verifySchemaM s1 path with
                | .error err => .error err
                | .ok _ => verifyFieldsM rest pfx
            | _ => verifyFieldsM rest pfx
      | .junk => .error ⟨"Invalid field definition for " ++ path, path⟩
termination_by (sizeOf ds, 0)

/-- Embedding of mongothon's `Schema._verify_field_spec`
(src/mongothon/schema.py lines 136-174).  The checks the embedding makes
vacuous are noted inline: a modeled `required` entry is always a bool, every
modeled dict spec carries a `type`, modeled validators are unary functions,
and modeled specs carry no unrecognized keys. -/
def verifyFieldSpecM (ftype : FType) (_required : Option Bool)
    (dflt : Option Dflt) (validates : Option Validations) (path : String) :
    Except SchemaFormatException Unit :=
  match ftype with
  | .schema s1 =>
      -- nested documents cannot have defaults or validation
      if dflt.isSome ∨ validates.isSome then
        .error ⟨"Unsupported field spec item at " ++ path, path⟩
      else verifySchemaM s1 path
  | .prim t =>
      match dflt with
      | some (.lit v) =>
          if !(isinstance v t) then
            .error ⟨"Default value for " ++ path ++ " is not of the nominated type.",
                     path⟩
          else .ok ()
      | _ => .ok ()
      -- a callable default is always accepted
termination_by (sizeOf ftype, 0)

end

/-- Embedding of schematic's `Schema._verify_field_spec`
(src/schematic/__init__.py lines 65-103); same vacuous checks as the
mongothon variant, plus the `field_type` must be a type or Schema (which the
embedding's `FType` guarantees). -/
def verifyFieldSpecS (ftype : FType) (_required : Option Bool)
    (dflt : Option Dflt) (validates : Option Validations) (path : String) :
    Except SchemaFormatException Unit :=
  match ftype with
  | .schema _ =>
      if dflt.isSome ∨ validates.isSome then
        .error ⟨"Unsupported field spec item at " ++ path, path⟩
      else .ok ()
  | .prim t =>
      match dflt with
      | some (.lit v) =>
          if !(isinstance v t) then
            .error ⟨"Default value for " ++ path ++ " is not of the nominated type.",
                     path⟩
          else .ok ()
      | _ => .ok ()

/-- Embedding of schematic's `Schema._verify` (src/schematic/__init__.py
lines 40-62), fail-fast.  Unlike the mongothon variant it checks that the
sole element of a list spec is a type or a Schema, and it does not recurse
into nested schemas (those verify themselves on construction). -/
def verifyFieldsS (ds : List (String × Spec)) (pfx : String) :
    Except SchemaFormatException Unit :=
  match ds with
  | [] => .ok ()
  | (f, spec) :: rest =>
      let path := appendPath pfx f
      match spec with
      | .dictSpec ftype required dflt validates =>
          match verifyFieldSpecS ftype required dflt validates path with
          | .error err => .error err
          | .ok _ => verifyFieldsS rest pfx
      | .listSpec elems =>
          if elems.length ≠ 1 then
            .error ⟨"Exactly one type must be declared for the embedded collection at "
                      ++ path, path⟩
          else
            match elems with
            | .junk :: _ =>
                .error ⟨"The type declaration for embedded collection at " ++ path
                          ++ " must be either a type (int, basestring, etc) or another Schema.",
                        path⟩
            | _ => verifyFieldsS rest pfx
      | .junk => .error ⟨"Invalid field definition for " ++ path, path⟩

/-- Wrapper for schematic's verify entered at a schema (path prefix `None`).
-/
def verifySchemaS (s : Schema) (pfx : String) :
    Except SchemaFormatException Unit :=
  verifyFieldsS (docSpecList s) pfx

/-- The field spec `Schema.__init__` injects for `_id`
(src/mongothon/schema.py line 80). -/
def idSpec : Spec :=
  .dictSpec (.prim .tObjectId) none none none

/-- Embedding of `mongothon.Schema.__init__` (src/mongothon/schema.py lines
73-80): every schema constructed without an `_id` field receives
`doc_spec['_id'] = {"type": ObjectId}`. -/
def mkSchema (ds : List (String × Spec)) (strict : Bool) : Schema :=
  if hasKey ds "_id" then .mk ds strict
  else .mk (ds ++ [("_id", idSpec)]) strict

/-- Embedding of `ChangeTracker`'s state (src/mongothon/document.py lines
29-47): `_added` is a Python list of keys, `_previous` and `_deleted` are
dicts from key to value. -/
structure Tracker where
  added : List String
  previous : List (String × Value)
  deleted : List (String × Value)

/-- The freshly reset tracker state (`reset_changes`, lines 34-41). -/
def resetTracker : Tracker :=
  ⟨[], [], []⟩

/-- Python `self._instance[key]` inside the tracker.  The callers below only
invoke it with the key present (a missing key would raise KeyError). -/
def instVal (inst : List (String × Value)) (key : String) : Value :=
  (lookupKey inst key).getD .vNone

/-- Embedding of `ChangeTracker.note_change` (src/mongothon/document.py lines
49-62), called with the pre-assignment instance contents. -/
def noteChange (t : Tracker) (inst : List (String × Value)) (key : String)
    (value : Value) : Tracker :=
  -- if we're changing the value and haven't done so already, note it
  let t1 :=
    if !(pyEq value (instVal inst key)) ∧ hasKey t.previous key = false
        ∧ key ∉ t.added then
      { t with previous := setKey t.previous key (instVal inst key) }
    else t
  -- if we're setting the value back to the original value, discard the note
  match lookupKey t1.previous key with
  | some pv =>
      if pyEq value pv then { t1 with previous := removeKey t1.previous key }
      else t1
  | none => t1

/-- Embedding of `ChangeTracker.note_addition` (src/mongothon/document.py
lines 64-76). -/
def noteAddition (t : Tracker) (key : String) (value : Value) : Tracker :=
  match lookupKey t.deleted key with
  | some dv =>
      -- re-adding a previously deleted field: a change when the value
      -- differs, and in any case the deletion note is dropped
      let prev := if !(pyEq value dv) then setKey t.previous key dv else t.previous
      { t with previous := prev, deleted := removeKey t.deleted key }
  | none => { t with added := t.added ++ [key] }

/-- Embedding of `ChangeTracker.note_deletion` (src/mongothon/document.py
lines 78-91), called with the pre-deletion instance contents. -/
def noteDeletion (t : Tracker) (inst : List (String × Value)) (key : String) :
    Tracker :=
  if key ∈ t.added then { t with added := t.added.erase key }
  else
    match lookupKey t.previous key with
    | some pv =>
        { t with deleted := setKey t.deleted key pv,
                 previous := removeKey t.previous key }
    | none => { t with deleted := setKey t.deleted key (instVal inst key) }

/-- A `Document` (src/mongothon/document.py lines 138-225) as its dict
contents paired with its tracker.  Wrapping of nested plain dicts/lists into
`Document`/`DocumentList` does not change the embedded contents, so `wrap` is
the identity on embedded values. -/
structure Doc where
  data : List (String × Value)
  tracker : Tracker

/-- Embedding of `Document.__setitem__` (src/mongothon/document.py lines
190-195): an existing key records a change, a new key an addition; the
tracker sees the instance before the store. -/
def setItem (d : Doc) (key : String) (value : Value) : Doc :=
  let t :=
    if hasKey d.data key then noteChange d.tracker d.data key value
    else noteAddition d.tracker key value
  ⟨setKey d.data key value, t⟩

/-- Embedding of `Document.__delitem__` (src/mongothon/document.py lines
197-199). -/
def delItem (d : Doc) (key : String) : Doc :=
  ⟨removeKey d.data key, noteDeletion d.tracker d.data key⟩

/-- Embedding of the `changed` property (src/mongothon/document.py lines
93-104): the changed keys with their current values. -/
def changedView (d : Doc) : List (String × Value) :=
  d.tracker.previous.map (fun kv => (kv.1, instVal d.data kv.1))

/-- Embedding of the `changes` property (src/mongothon/document.py lines
106-118): the changed keys with previous and current values. -/
def changesView (d : Doc) : List (String × Value × Value) :=
  d.tracker.previous.map (fun kv => (kv.1, kv.2, instVal d.data kv.1))

/-- Embedding of the `added` property (src/mongothon/document.py lines
120-127). -/
def addedView (d : Doc) : List (String × Value) :=
  d.tracker.added.map (fun k => (k, instVal d.data k))

/-- Embedding of the `deleted` property (src/mongothon/document.py lines
129-136): the raw deleted map. -/
def deletedView (d : Doc) : List (String × Value) :=
  d.tracker.deleted

/-- The message a validator contributes for a value: its returned string if
Python finds it truthy, nothing otherwise. -/
def failMsg (fn : Validator) (value : Value) : Option String :=
  match fn value with
  | some s => if s = "" then none else some s
  | none => none

/-- The message of the last failing validator of a list, if any fails. -/
def lastFailMsg (fns : List Validator) (value : Value) : Option String :=
  (fns.filterMap (fun fn => failMsg fn value)).getLast?

/-- True when a field name contains no dot, so its top-level error path
cannot collide with any nested dotted path. -/
def dotFree (f : String) : Prop :=
  ('.' : Char) ∉ f.data

/-- The dotted-path ordering: `k` is the path `p` itself or lies strictly
below it (has `p` followed by a dot as a prefix). -/
def pathUnder (p k : String) : Prop :=
  k = p ∨ (p ++ ".").data <+: k.data

mutual

/-- Duplicate-freedom of field names, recursively through nested schemas —
automatic for genuine Python dicts, made explicit for the association-list
embedding. -/
def nodupDeep (s : Schema) : Bool :=
  match s with
  | .mk ds _ => nodupKeys ds && nodupDeepFields ds
termination_by (sizeOf s, 1)

/-- Key duplicate-freedom for a field list, recursively. -/
def nodupDeepFields (ds : List (String × Spec)) : Bool :=
  match ds with
  | [] => true
  | (_, sp) :: rest => nodupDeepSpec sp && nodupDeepFields rest
termination_by (sizeOf ds, 1)

/-- Key duplicate-freedom inside one field spec. -/
def nodupDeepSpec (sp : Spec) : Bool :=
  match sp with
  | .dictSpec (.schema s1) _ _ _ => nodupDeep s1
  | .dictSpec (.prim _) _ _ _ => true
  | .listSpec elems => nodupDeepElems elems
  | .junk => true
termination_by (sizeOf sp, 1)

/-- Key duplicate-freedom inside embedded-collection elements. -/
def nodupDeepElems (elems : List LElem) : Bool :=
  match elems with
  | [] => true
  | .sch s1 :: rest => nodupDeep s1 && nodupDeepElems rest
  | _ :: rest => nodupDeepElems rest
termination_by (sizeOf elems, 0)

end

/-- The value the defaulting pass would store at a field, as a function of
the field's current entry: `none` means the field is left untouched. -/
def stepVal (sp : Spec) : Option Value → Option Value
  | some v =>
      match sp, v with
      | .listSpec (.sch s1 :: _), .vList items =>
          some (.vList (applyItemsDefaults s1 items))
      | .dictSpec (.schema s1) _ _ _, .vDoc d =>
          some (.vDoc (applySchemaDefaults s1 d))
      | _, _ => none
  | none =>
      match sp with
      | .dictSpec _ _ (some d) _ => some (evalDefault d)
      | _ => none

theorem lookupKey_setKey_self (l : List (String × α)) (k : String) (v : α) :
    lookupKey (setKey l k v) k = some v := by
  induction l with
  | nil => simp [setKey, lookupKey]
  | cons hd tl ih =>
      obtain ⟨k1, w⟩ := hd
      by_cases h : k1 = k
      · simp [setKey, h, lookupKey]
      · simp [setKey, h, lookupKey, ih]

theorem lookupKey_setKey_ne (l : List (String × α)) (k k2 : String) (v : α)
    (h : k ≠ k2) : lookupKey (setKey l k v) k2 = lookupKey l k2 := by
  induction l with
  | nil => simp [setKey, lookupKey, h]
  | cons hd tl ih =>
      obtain ⟨k1, w⟩ := hd
      by_cases h1 : k1 = k
      · subst h1
        simp [setKey, lookupKey, h]
      · simp [setKey, h1, lookupKey, ih]

theorem lookupKey_removeKey_self (l : List (String × α)) (k : String) :
    lookupKey (removeKey l k) k = none := by
  induction l with
  | nil => simp [removeKey, lookupKey]
  | cons hd tl ih =>
      obtain ⟨k1, w⟩ := hd
      by_cases h : k1 = k
      · simp [removeKey, h, ih]
      · simp [removeKey, h, lookupKey, ih]

theorem lookupKey_removeKey_ne (l : List (String × α)) (k k2 : String)
    (h : k ≠ k2) : lookupKey (removeKey l k) k2 = lookupKey l k2 := by
  induction l with
  | nil => simp [removeKey, lookupKey]
  | cons hd tl ih =>
      obtain ⟨k1, w⟩ := hd
      by_cases h1 : k1 = k
      · subst h1
        simp [removeKey, lookupKey, h, Ne.symm h, ih]
      · simp [removeKey, h1, lookupKey, ih]

theorem hasKey_setKey_self (l : List (String × α)) (k : String) (v : α) :
    hasKey (setKey l k v) k = true := by
  simp [hasKey, lookupKey_setKey_self]

theorem hasKey_removeKey_self (l : List (String × α)) (k : String) :
    hasKey (removeKey l k) k = false := by
  simp [hasKey, lookupKey_removeKey_self]

theorem setKey_setKey_same (l : List (String × α)) (k : String) (a b : α) :
    setKey (setKey l k a) k b = setKey l k b := by
  induction l with
  | nil => simp [setKey]
  | cons hd tl ih =>
      obtain ⟨k1, w⟩ := hd
      by_cases h : k1 = k
      · simp [setKey, h]
      · simp [setKey, h, ih]

theorem setKey_comm_of_hasKey (l : List (String × α)) (f g : String) (a b : α)
    (hm : hasKey l f = true) (hne : f ≠ g) :
    setKey (setKey l g b) f a = setKey (setKey l f a) g b := by
  induction l with
  | nil => simp [hasKey, lookupKey] at hm
  | cons hd tl ih =>
      obtain ⟨k1, w⟩ := hd
      by_cases h1 : k1 = f
      · subst h1
        simp [setKey, hne, Ne.symm hne]
      · by_cases h2 : k1 = g
        · subst h2
          have hm2 : hasKey tl f = true := by
            simpa [hasKey, lookupKey, h1] using hm
          simp [setKey, h1, hne, Ne.symm hne]
        · have hm2 : hasKey tl f = true := by
            simpa [hasKey, lookupKey, h1] using hm
          simp [setKey, h1, h2, ih hm2]

theorem lookupKey_mapFst {β : Type} (l : List (String × α))
    (g : String × α → β) (k : String) (h : hasKey l k = false) :
    lookupKey (l.map fun kv => (kv.1, g kv)) k = none := by
  induction l with
  | nil => simp [lookupKey]
  | cons hd tl ih =>
      obtain ⟨k1, w⟩ := hd
      by_cases h1 : k1 = k
      · simp [hasKey, lookupKey, h1] at h
      · have h2 : hasKey tl k = false := by
          simpa [hasKey, lookupKey, h1] using h
        simp [lookupKey, h1, ih h2]

theorem pyEq_refl_aux : ∀ n : Nat,
    (∀ v : Value, sizeOf v ≤ n → pyEq v v = true)
    ∧ (∀ l : List (String × Value), sizeOf l ≤ n → pyEqFields l l = true)
    ∧ (∀ l : List Value, sizeOf l ≤ n → pyEqItems l l = true) := by
  intro n
  induction n using Nat.strong_induction_on with
  | _ n ih =>
    refine ⟨?_, ?_, ?_⟩
    · intro v hv
      match v with
      | .vNone => simp [pyEq]
      | .vInt a => simp [pyEq]
      | .vBool a => simp [pyEq]
      | .vStr a => simp [pyEq]
      | .vObjectId a => simp [pyEq]
      | .vDoc fs =>
          have hlt : sizeOf fs < n := by
            have := hv
            simp only [Value.vDoc.sizeOf_spec] at this
            omega
          have := (ih (sizeOf fs) hlt).2.1 fs le_rfl
          simpa [pyEq] using this
      | .vList xs =>
          have hlt : sizeOf xs < n := by
            have := hv
            simp only [Value.vList.sizeOf_spec] at this
            omega
          have := (ih (sizeOf xs) hlt).2.2 xs le_rfl
          simpa [pyEq] using this
    · intro l hl
      match l with
      | [] => simp [pyEqFields]
      | (k, v) :: r =>
          have hv : sizeOf v < n := by
            simp only [List.cons.sizeOf_spec, Prod.mk.sizeOf_spec] at hl
            omega
          have hr : sizeOf r < n := by
            simp only [List.cons.sizeOf_spec] at hl
            omega
          have e1 := (ih (sizeOf v) hv).1 v le_rfl
          have e2 := (ih (sizeOf r) hr).2.1 r le_rfl
          simp [pyEqFields, e1, e2]
    · intro l hl
      match l with
      | [] => simp [pyEqItems]
      | v :: r =>
          have hv : sizeOf v < n := by
            simp only [List.cons.sizeOf_spec] at hl
            omega
          have hr : sizeOf r < n := by
            simp only [List.cons.sizeOf_spec] at hl
            omega
          have e1 := (ih (sizeOf v) hv).1 v le_rfl
          have e2 := (ih (sizeOf r) hr).2.2 r le_rfl
          simp [pyEqItems, e1, e2]

theorem pyEq_refl (v : Value) : pyEq v v = true :=
  (pyEq_refl_aux (sizeOf v)).1 v le_rfl

theorem setItem_of_hasKey (d : Doc) (k : String) (v : Value)
    (h : hasKey d.data k = true) :
    setItem d k v = ⟨setKey d.data k v, noteChange d.tracker d.data k v⟩ := by
  simp [setItem, h]

theorem noteChange_fresh (t : Tracker) (inst : List (String × Value))
    (k : String) (value : Value)
    (h2 : hasKey t.previous k = false) (h3 : k ∉ t.added)
    (h4 : pyEq value (instVal inst k) = false) :
    noteChange t inst k value
      = { t with previous := setKey t.previous k (instVal inst k) } := by
  simp [noteChange, h2, h3, h4, lookupKey_setKey_self]

theorem noteChange_back (t : Tracker) (inst : List (String × Value))
    (k : String) (value pv : Value)
    (hprev : lookupKey t.previous k = some pv) (hpy : pyEq value pv = true) :
    noteChange t inst k value = { t with previous := removeKey t.previous k } := by
  have hhk : hasKey t.previous k = true := by simp [hasKey, hprev]
  simp [noteChange, hhk, hprev, hpy]

/-- Claim C4: when the instance holds baseline value old at key k and the
tracker has no note for k, assigning a different value new records
previous[k] = old, and a subsequent assignment back to old removes k from
previous entirely, so changed and changes no longer contain k. -/
theorem C4_note_change_roundtrip (d : Doc) (k : String) (old new : Value)
    (h1 : lookupKey d.data k = some old)
    (h2 : hasKey d.tracker.previous k = false)
    (h3 : k ∉ d.tracker.added)
    (h4 : pyEq new old = false) :
    lookupKey (setItem d k new).tracker.previous k = some old
    ∧ hasKey (setItem (setItem d k new) k old).tracker.previous k = false
    ∧ lookupKey (changedView (setItem (setItem d k new) k old)) k = none
    ∧ lookupKey (changesView (setItem (setItem d k new) k old)) k = none := by
  have hdk : hasKey d.data k = true := by simp [hasKey, h1]
  have hinst : instVal d.data k = old := by simp [instVal, h1]
  have e1 : setItem d k new
      = ⟨setKey d.data k new,
         { d.tracker with previous := setKey d.tracker.previous k old }⟩ := by
    rw [setItem_of_hasKey d k new hdk,
        noteChange_fresh d.tracker d.data k new h2 h3 (by rw [hinst]; exact h4),
        hinst]
  have hdk1 : hasKey (setItem d k new).data k = true := by
    rw [e1]; exact hasKey_setKey_self _ _ _
  have e2 : setItem (setItem d k new) k old
      = ⟨setKey (setItem d k new).data k old,
         { d.tracker with
            previous := removeKey (setKey d.tracker.previous k old) k }⟩ := by
    rw [setItem_of_hasKey _ k old hdk1]
    rw [noteChange_back _ _ k old old (by rw [e1]; exact lookupKey_setKey_self _ _ _)
          (pyEq_refl old)]
    rw [e1]
  refine ⟨?_, ?_, ?_, ?_⟩
  · rw [e1]
    exact lookupKey_setKey_self _ _ _
  · rw [e2]
    exact hasKey_removeKey_self _ _
  · refine lookupKey_mapFst _ _ _ ?_
    rw [e2]
    exact hasKey_removeKey_self _ _
  · refine lookupKey_mapFst _ _ _ ?_
    rw [e2]
    exact hasKey_removeKey_self _ _

/-- Witness for C4 at a concrete document: field a with baseline 1, set to 2
and back to 1. -/
theorem C4_note_change_roundtrip_witness :
    lookupKey (setItem (⟨[("a", .vInt 1)], resetTracker⟩ : Doc) "a" (.vInt 2)).tracker.previous "a"
      = some (.vInt 1)
    ∧ hasKey (setItem (setItem (⟨[("a", .vInt 1)], resetTracker⟩ : Doc) "a" (.vInt 2)) "a" (.vInt 1)).tracker.previous "a" = false
    ∧ lookupKey (changedView (setItem (setItem (⟨[("a", .vInt 1)], resetTracker⟩ : Doc) "a" (.vInt 2)) "a" (.vInt 1))) "a" = none
    ∧ lookupKey (changesView (setItem (setItem (⟨[("a", .vInt 1)], resetTracker⟩ : Doc) "a" (.vInt 2)) "a" (.vInt 1))) "a" = none :=
  C4_note_change_roundtrip ⟨[("a", .vInt 1)], resetTracker⟩ "a" (.vInt 1) (.vInt 2)
    (by simp [lookupKey]) (by simp [resetTracker, hasKey, lookupKey])
    (by simp [resetTracker]) (by simp [pyEq])

/-- Claim C2: from the baseline document with field a holding 1, deleting a
and re-adding a with value 1 leaves changed, added and deleted all empty,
while deleting a and re-adding a with value 2 leaves added and deleted empty
and records a as changed from previous value 1 to current value 2. -/
theorem C2_change_tracker_net_algebra :
    (changedView (setItem (delItem ⟨[("a", .vInt 1)], resetTracker⟩ "a") "a" (.vInt 1)) = []
      ∧ addedView (setItem (delItem ⟨[("a", .vInt 1)], resetTracker⟩ "a") "a" (.vInt 1)) = []
      ∧ deletedView (setItem (delItem ⟨[("a", .vInt 1)], resetTracker⟩ "a") "a" (.vInt 1)) = [])
    ∧ (changedView (setItem (delItem ⟨[("a", .vInt 1)], resetTracker⟩ "a") "a" (.vInt 2)) = [("a", .vInt 2)]
      ∧ changesView (setItem (delItem ⟨[("a", .vInt 1)], resetTracker⟩ "a") "a" (.vInt 2)) = [("a", .vInt 1, .vInt 2)]
      ∧ addedView (setItem (delItem ⟨[("a", .vInt 1)], resetTracker⟩ "a") "a" (.vInt 2)) = []
      ∧ deletedView (setItem (delItem ⟨[("a", .vInt 1)], resetTracker⟩ "a") "a" (.vInt 2)) = []) := by
  refine ⟨⟨?_, ?_, ?_⟩, ?_, ?_, ?_, ?_⟩ <;>
    simp [setItem, delItem, noteChange, noteAddition, noteDeletion, resetTracker,
      hasKey, lookupKey, setKey, removeKey, instVal, pyEq, changedView, addedView,
      deletedView, changesView]

/-- Claim C1: validate raises a ValidationException carrying the complete
accumulated error map if and only if that map is non-empty after walking the
schema, and returns normally when the map is empty.  The source only reads
the instance during validation, which the embedding reflects by validation
being a pure function of the instance (non-mutation holds by construction).
-/
theorem C1_validate_raises_iff_errors (s : Schema) (inst : Value) :
    (validate s inst = .ok ()
      ↔ validateInstanceAgainstSchema inst s (strictFlag s) [] "" = [])
    ∧ (∀ E : ValidationException, validate s inst = .error E
      ↔ (E.errors = validateInstanceAgainstSchema inst s (strictFlag s) [] ""
          ∧ validateInstanceAgainstSchema inst s (strictFlag s) [] "" ≠ [])) := by
  cases h : validateInstanceAgainstSchema inst s (strictFlag s) [] "" with
  | nil =>
      refine ⟨by simp [validate, h], fun E => ?_⟩
      simp [validate, h]
  | cons hd tl =>
      refine ⟨by simp [validate, h], fun E => ?_⟩
      constructor
      · intro hE
        simp only [validate, h] at hE
        simp only [List.length_cons] at hE
        rw [if_pos (Nat.succ_pos _)] at hE
        obtain ⟨rfl⟩ : ValidationException.mk (hd :: tl) = E := by
          exact (Except.error.inj hE)
        exact ⟨rfl, by simp⟩
      · rintro ⟨hEe, -⟩
        simp only [validate, h, List.length_cons]
        rw [if_pos (Nat.succ_pos _)]
        cases E with
        | mk errs =>
            simp only at hEe
            rw [hEe]

theorem applyValidator_eq (fn : Validator) (value : Value) (path : String)
    (errors : ErrMap) :
    applyValidator fn value path errors
      = match failMsg fn value with
        | some m => storeErr errors path m
        | none => errors := by
  unfold applyValidator failMsg
  cases h : fn value with
  | none => rfl
  | some s =>
      by_cases hs : s = "" <;> simp [hs]

theorem foldl_applyValidator (fns : List Validator) (value : Value)
    (path : String) : ∀ errors : ErrMap,
    fns.foldl (fun e fn => applyValidator fn value path e) errors
      = match lastFailMsg fns value with
        | some m => storeErr errors path m
        | none => errors := by
  induction fns with
  | nil => intro errors; simp [lastFailMsg]
  | cons fn rest ih =>
      intro errors
      simp only [List.foldl_cons]
      rw [ih]
      rw [applyValidator_eq]
      cases hf : failMsg fn value with
      | none =>
          simp [lastFailMsg, List.filterMap_cons, hf]
      | some m =>
          simp only [lastFailMsg, List.filterMap_cons, hf]
          cases hrest : rest.filterMap (fun fn => failMsg fn value) with
          | nil => simp [lastFailMsg, hrest]
          | cons hd tl =>
              simp only [lastFailMsg, hrest, List.getLast?_cons_cons]
              cases hlast : (hd :: tl).getLast? with
              | none => simp at hlast
              | some m2 =>
                  simp only [storeErr]
                  exact setKey_setKey_same errors path m m2

/-- Claim C8: for a field with a list of validators whose value is present
and passes the type check, the validators run in declared order and each
failing validator overwrites any prior message at the field's path, so the
error map ends up holding exactly the last failing validator's message (and
is unchanged when none fail). -/
theorem C8_last_failing_validator_wins (fns : List Validator) (value : Value)
    (t : PyType) (required : Option Bool) (dflt : Option Dflt)
    (strict : Bool) (errors : ErrMap) (path : String)
    (hnn : isNone value = false) (hty : isinstance value t = true) :
    validateValue value (.dictSpec (.prim t) required dflt (some (.many fns)))
        strict errors path
      = match lastFailMsg fns value with
        | some m => storeErr errors path m
        | none => errors := by
  rw [validateValue]
  simp only [hnn, hty, Bool.false_eq_true, if_false, Bool.not_true,
    runValidations]
  exact foldl_applyValidator fns value path errors

/-- Witness for C8: two always-failing validators on an int field; the error
map holds only the second message. -/
theorem C8_last_failing_validator_wins_witness :
    validateValue (.vInt 3)
        (.dictSpec (.prim .tInt) none none
          (some (.many [fun _ => some "too small", fun _ => some "too big"])))
        true [] "f"
      = [("f", "too big")] := by
  rw [C8_last_failing_validator_wins
        [fun _ => some "too small", fun _ => some "too big"]
        (.vInt 3) .tInt none none true [] "f" (by simp [isNone]) (by simp [isinstance])]
  rfl

/-- Counterexample to claim C6 as stated: mongothon's verify accepts a
single-element list spec whose sole element is neither a type nor a Schema
(it returns normally instead of raising). -/
theorem C6_counterexample_mongothon_accepts_junk_element :
    verifySchemaM (.mk [("f", .listSpec [.junk])] true) "" = .ok () := by
  simp [verifySchemaM, verifyFieldsM, appendPath]

/-- Claim C6 amended: both verifies raise the "Exactly one type" error for a
list spec without exactly one element; the additional check that the sole
element must be a type or a Schema exists only in schematic's verify —
mongothon's verify silently accepts a single element that is neither. -/
theorem C6_embedded_collection_verify (f : String) (elems : List LElem)
    (st : Bool) (hlen : elems.length ≠ 1) :
    (verifySchemaM (.mk [(f, .listSpec elems)] st) ""
      = .error ⟨"Exactly one type must be declared for the embedded collection at " ++ f, f⟩)
    ∧ (verifySchemaS (.mk [(f, .listSpec elems)] st) ""
      = .error ⟨"Exactly one type must be declared for the embedded collection at " ++ f, f⟩)
    ∧ (verifySchemaS (.mk [(f, .listSpec [.junk])] st) ""
      = .error ⟨"The type declaration for embedded collection at " ++ f
                  ++ " must be either a type (int, basestring, etc) or another Schema.", f⟩)
    ∧ (verifySchemaM (.mk [(f, .listSpec [.junk])] st) "" = .ok ()) := by
  have hlen2 : elems.length = 0 ∨ elems.length > 1 := by omega
  refine ⟨?_, ?_, ?_, ?_⟩
  · rw [verifySchemaM, verifyFieldsM.eq_def]
    simp only [appendPath, if_pos hlen2]
    simp
  · rw [verifySchemaS, docSpecList, verifyFieldsS.eq_def]
    simp only [appendPath, if_pos hlen]
    simp
  · simp [verifySchemaS, verifyFieldsS, docSpecList, appendPath]
  · simp [verifySchemaM, verifyFieldsM, appendPath]

/-- Witness for C6 amended at the empty element list. -/
theorem C6_embedded_collection_verify_witness :
    verifySchemaM (.mk [("w", .listSpec [])] true) ""
      = .error ⟨"Exactly one type must be declared for the embedded collection at w", "w"⟩ :=
  (C6_embedded_collection_verify "w" [] true (by simp)).1

/-- Counterexample to claim C3 as stated: for a schema (rejected by verify)
declaring a nested-Schema-typed field with a default, apply_defaults is not
idempotent — the first pass assigns the default without recursing into it,
and the second pass recurses and fills the nested default. -/
theorem C3_counterexample_defaults_not_idempotent :
    (applySchemaDefaults
        (.mk [("f", .dictSpec
            (.schema (.mk [("g", .dictSpec (.prim .tInt) none (some (.lit (.vInt 1))) none)] true))
            none (some (.lit (.vDoc []))) none)] true)
        []
      = [("f", .vDoc [])])
    ∧ (applySchemaDefaults
        (.mk [("f", .dictSpec
            (.schema (.mk [("g", .dictSpec (.prim .tInt) none (some (.lit (.vInt 1))) none)] true))
            none (some (.lit (.vDoc []))) none)] true)
        (applySchemaDefaults
          (.mk [("f", .dictSpec
              (.schema (.mk [("g", .dictSpec (.prim .tInt) none (some (.lit (.vInt 1))) none)] true))
              none (some (.lit (.vDoc []))) none)] true)
          [])
      = [("f", .vDoc [("g", .vInt 1)])])
    ∧ [("f", Value.vDoc [("g", Value.vInt 1)])] ≠ [("f", Value.vDoc [])] := by
  refine ⟨?_, ?_, by simp⟩ <;>
    simp [applySchemaDefaults, applyDefaultsFields, applyFieldDefault,
      applyPresentField, applyAbsentDefault, lookupKey, setKey, evalDefault]

theorem data_dot_isPrefixOf (p f : String) :
    (p ++ ".").data <+: (p ++ "." ++ f).data := by
  rw [String.data_append (p ++ ".") f]
  exact List.prefix_append _ _

theorem pathUnder_self_append (p f : String) : pathUnder p (p ++ "." ++ f) :=
  Or.inr (data_dot_isPrefixOf p f)

theorem pathUnder_mono (p a k : String) (h : pathUnder (p ++ "." ++ a) k) :
    pathUnder p k := by
  rcases h with rfl | hpre
  · exact pathUnder_self_append p a
  · have h1 : (p ++ ".").data <+: ((p ++ "." ++ a) ++ ".").data := by
      rw [String.append_assoc (p ++ ".") a ".", String.data_append (p ++ ".") (a ++ ".")]
      exact List.prefix_append _ _
    exact Or.inr (h1.trans hpre)

theorem not_pathUnder_of_dotFree (g f : String) (hne : f ≠ g)
    (hdf : dotFree f) : ¬ pathUnder g f := by
  rintro (rfl | hpre)
  · exact hne rfl
  · refine hdf (hpre.subset ?_)
    rw [String.data_append]
    simp

theorem appendPath_empty_pfx (f : String) : appendPath "" f = f := by
  simp [appendPath]

theorem appendPath_of_ne (p f : String) (h : p ≠ "") :
    appendPath p f = p ++ "." ++ f := by
  simp [appendPath, h]

theorem append_dot_ne_empty (p f : String) : p ++ "." ++ f ≠ "" := by
  intro h
  have hlen := congrArg String.length h
  simp only [String.length_append] at hlen
  have h1 : ("." : String).length = 1 := rfl
  have h2 : ("" : String).length = 0 := rfl
  omega

theorem checkUnexpected_loc (ds : List (String × Spec)) (strict : Bool)
    (p k : String) (hp : p ≠ "") (hk : ¬ pathUnder p k) :
    ∀ (fields : List (String × Value)) (errors : ErrMap),
      lookupKey (checkUnexpected fields ds strict errors p) k
        = lookupKey errors k := by
  intro fields
  induction fields with
  | nil => intro errors; rfl
  | cons hd tl ih =>
      intro errors
      simp only [checkUnexpected, List.foldl_cons] at ih ⊢
      have hne : appendPath p hd.1 ≠ k := by
        rw [appendPath_of_ne p hd.1 hp]
        intro he
        exact hk (he ▸ pathUnder_self_append p hd.1)
      rw [ih]
      by_cases h1 : hasKey ds hd.1 = true
      · simp [h1]
      · simp only [h1, Bool.false_eq_true, if_false]
        by_cases h2 : strict = true
        · simp only [h2, if_true]
          exact lookupKey_setKey_ne _ _ _ _ hne
        · simp [h2]

theorem runValidations_loc (vals : Option Validations) (value : Value)
    (path k : String) (errors : ErrMap) (hne : path ≠ k) :
    lookupKey (runValidations vals value path errors) k = lookupKey errors k := by
  cases vals with
  | none => rfl
  | some v =>
      cases v with
      | single fn =>
          simp only [runValidations]
          rw [applyValidator_eq]
          cases hf : failMsg fn value with
          | none => rfl
          | some m => exact lookupKey_setKey_ne _ _ _ _ hne
      | many fns =>
          simp only [runValidations]
          rw [foldl_applyValidator]
          cases hf : lastFailMsg fns value with
          | none => rfl
          | some m => exact lookupKey_setKey_ne _ _ _ _ hne

theorem validate_loc_aux : ∀ n : Nat,
    (∀ s : Schema, sizeOf s ≤ n → ∀ inst strict errors p k, p ≠ "" →
        ¬ pathUnder p k →
        lookupKey (validateInstanceAgainstSchema inst s strict errors p) k
          = lookupKey errors k)
    ∧ (∀ ds : List (String × Spec), sizeOf ds ≤ n →
        ∀ inst strict errors p k, p ≠ "" → ¬ pathUnder p k →
        lookupKey (validateFields inst ds strict errors p) k = lookupKey errors k)
    ∧ (∀ sp : Spec, sizeOf sp ≤ n → ∀ value strict errors path k, path ≠ "" →
        ¬ pathUnder path k →
        lookupKey (validateOneField value sp strict errors path) k
          = lookupKey errors k)
    ∧ (∀ sp : Spec, sizeOf sp ≤ n → ∀ value strict errors path k, path ≠ "" →
        ¬ pathUnder path k →
        lookupKey (validateValue value sp strict errors path) k
          = lookupKey errors k)
    ∧ (∀ el : LElem, sizeOf el ≤ n → ∀ items strict errors path i k, path ≠ "" →
        ¬ pathUnder path k →
        lookupKey (validateListItems items el strict errors path i) k
          = lookupKey errors k) := by
  intro n
  induction n using Nat.strong_induction_on with
  | _ n ih =>
  have hItems : ∀ el : LElem, sizeOf el ≤ n → ∀ items strict errors path i k,
      path ≠ "" → ¬ pathUnder path k →
      lookupKey (validateListItems items el strict errors path i) k
        = lookupKey errors k := by
    intro el hel items
    induction items with
    | nil => intro strict errors path i k hp hk; simp [validateListItems]
    | cons item rest ihit =>
        intro strict errors path i k hp hk
        simp only [validateListItems]
        rw [ihit strict _ path (i + 1) k hp hk]
        have hne : path ++ "." ++ toString i ≠ k := by
          intro he
          exact hk (he ▸ pathUnder_self_append path (toString i))
        cases el with
        | sch s1 =>
            have hs1 : sizeOf s1 < n := by
              simp only [LElem.sch.sizeOf_spec] at hel
              omega
            simp only [validateItemStep]
            exact (ih (sizeOf s1) hs1).1 s1 le_rfl item strict errors
              (path ++ "." ++ toString i) k (append_dot_ne_empty path (toString i))
              (fun hu => hk (pathUnder_mono path (toString i) k hu))
        | ty t =>
            simp only [validateItemStep]
            by_cases hti : isinstance item t = true
            · simp [hti]
            · simp only [hti, Bool.not_false, Bool.false_eq_true, if_false]
              exact lookupKey_setKey_ne _ _ _ _ hne
        | junk => simp [validateItemStep]
  have hValue : ∀ sp : Spec, sizeOf sp ≤ n → ∀ value strict errors path k,
      path ≠ "" → ¬ pathUnder path k →
      lookupKey (validateValue value sp strict errors path) k
        = lookupKey errors k := by
    intro sp hsp value strict errors path k hp hk
    have hnep : path ≠ k := fun he => hk (Or.inl he.symm)
    cases sp with
    | junk => rw [validateValue.eq_def]
    | listSpec elems => rw [validateValue.eq_def]
    | dictSpec ftype req d vals =>
        cases value with
        | vNone =>
            rw [validateValue.eq_def]
            simp only [isNone, if_true]
            by_cases hr : req.getD false = true
            · simp only [hr, if_true]
              exact lookupKey_setKey_ne _ _ _ _ hnep
            · simp [hr]
        | vDoc fields =>
            cases ftype with
            | schema s1 =>
                have hs1 : sizeOf s1 < n := by
                  simp only [Spec.dictSpec.sizeOf_spec, FType.schema.sizeOf_spec] at hsp
                  omega
                simp only [validateValue, isNone, Bool.false_eq_true, if_false]
                exact (ih (sizeOf s1) hs1).1 s1 le_rfl _ strict errors path k hp hk
            | prim t =>
                simp only [validateValue, isNone, Bool.false_eq_true, if_false]
                by_cases hti : isinstance (Value.vDoc fields) t = true
                · simp only [hti, Bool.not_true, Bool.false_eq_true, if_false]
                  exact runValidations_loc vals _ path k errors hnep
                · simp only [hti, Bool.not_false, Bool.false_eq_true, if_false]
                  exact lookupKey_setKey_ne _ _ _ _ hnep
        | vInt a =>
            cases ftype with
            | schema s1 =>
                simp only [validateValue, isNone, Bool.false_eq_true, if_false]
                exact lookupKey_setKey_ne _ _ _ _ hnep
            | prim t =>
                simp only [validateValue, isNone, Bool.false_eq_true, if_false]
                by_cases hti : isinstance (Value.vInt a) t = true
                · simp only [hti, Bool.not_true, Bool.false_eq_true, if_false]
                  exact runValidations_loc vals _ path k errors hnep
                · simp only [hti, Bool.not_false, Bool.false_eq_true, if_false]
                  exact lookupKey_setKey_ne _ _ _ _ hnep
        | vBool a =>
            cases ftype with
            | schema s1 =>
                simp only [validateValue, isNone, Bool.false_eq_true, if_false]
                exact lookupKey_setKey_ne _ _ _ _ hnep
            | prim t =>
                simp only [validateValue, isNone, Bool.false_eq_true, if_false]
                by_cases hti : isinstance (Value.vBool a) t = true
                · simp only [hti, Bool.not_true, Bool.false_eq_true, if_false]
                  exact runValidations_loc vals _ path k errors hnep
                · simp only [hti, Bool.not_false, Bool.false_eq_true, if_false]
                  exact lookupKey_setKey_ne _ _ _ _ hnep
        | vStr a =>
            cases ftype with
            | schema s1 =>
                simp only [validateValue, isNone, Bool.false_eq_true, if_false]
                exact lookupKey_setKey_ne _ _ _ _ hnep
            | prim t =>
                simp only [validateValue, isNone, Bool.false_eq_true, if_false]
                by_cases hti : isinstance (Value.vStr a) t = true
                · simp only [hti, Bool.not_true, Bool.false_eq_true, if_false]
                  exact runValidations_loc vals _ path k errors hnep
                · simp only [hti, Bool.not_false, Bool.false_eq_true, if_false]
                  exact lookupKey_setKey_ne _ _ _ _ hnep
        | vObjectId a =>
            cases ftype with
            | schema s1 =>
                simp only [validateValue, isNone, Bool.false_eq_true, if_false]
                exact lookupKey_setKey_ne _ _ _ _ hnep
            | prim t =>
                simp only [validateValue, isNone, Bool.false_eq_true, if_false]
                by_cases hti : isinstance (Value.vObjectId a) t = true
                · simp only [hti, Bool.not_true, Bool.false_eq_true, if_false]
                  exact runValidations_loc vals _ path k errors hnep
                · simp only [hti, Bool.not_false, Bool.false_eq_true, if_false]
                  exact lookupKey_setKey_ne _ _ _ _ hnep
        | vList xs =>
            cases ftype with
            | schema s1 =>
                simp only [validateValue, isNone, Bool.false_eq_true, if_false]
                exact lookupKey_setKey_ne _ _ _ _ hnep
            | prim t =>
                simp only [validateValue, isNone, Bool.false_eq_true, if_false]
                by_cases hti : isinstance (Value.vList xs) t = true
                · simp only [hti, Bool.not_true, Bool.false_eq_true, if_false]
                  exact runValidations_loc vals _ path k errors hnep
                · simp only [hti, Bool.not_false, Bool.false_eq_true, if_false]
                  exact lookupKey_setKey_ne _ _ _ _ hnep
  have hOne : ∀ sp : Spec, sizeOf sp ≤ n → ∀ value strict errors path k,
      path ≠ "" → ¬ pathUnder path k →
      lookupKey (validateOneField value sp strict errors path) k
        = lookupKey errors k := by
    intro sp hsp value strict errors path k hp hk
    have hnep : path ≠ k := fun he => hk (Or.inl he.symm)
    cases sp with
    | dictSpec ftype req d vals =>
        simp only [validateOneField]
        exact hValue _ hsp value strict errors path k hp hk
    | junk => simp [validateOneField]
    | listSpec elems =>
        cases value with
        | vNone => simp [validateOneField, isNone]
        | vList items =>
            cases elems with
            | nil => simp [validateOneField, isNone]
            | cons elem rest2 =>
                have hel : sizeOf elem < n := by
                  simp only [Spec.listSpec.sizeOf_spec, List.cons.sizeOf_spec] at hsp
                  omega
                simp only [validateOneField, isNone, Bool.false_eq_true, if_false]
                exact hItems elem (le_of_lt hel) items strict errors path 0 k hp hk
        | vInt a =>
            simp only [validateOneField, isNone, Bool.false_eq_true, if_false]
            exact lookupKey_setKey_ne _ _ _ _ hnep
        | vBool a =>
            simp only [validateOneField, isNone, Bool.false_eq_true, if_false]
            exact lookupKey_setKey_ne _ _ _ _ hnep
        | vStr a =>
            simp only [validateOneField, isNone, Bool.false_eq_true, if_false]
            exact lookupKey_setKey_ne _ _ _ _ hnep
        | vObjectId a =>
            simp only [validateOneField, isNone, Bool.false_eq_true, if_false]
            exact lookupKey_setKey_ne _ _ _ _ hnep
        | vDoc fields =>
            simp only [validateOneField, isNone, Bool.false_eq_true, if_false]
            exact lookupKey_setKey_ne _ _ _ _ hnep
  have hFields : ∀ ds : List (String × Spec), sizeOf ds ≤ n →
      ∀ inst strict errors p k, p ≠ "" → ¬ pathUnder p k →
      lookupKey (validateFields inst ds strict errors p) k
        = lookupKey errors k := by
    intro ds hds inst strict errors p k hp hk
    cases ds with
    | nil => simp [validateFields]
    | cons hd rest =>
        obtain ⟨f, spec⟩ := hd
        simp only [validateFields]
        have hrest : sizeOf rest < n := by
          simp only [List.cons.sizeOf_spec] at hds
          omega
        rw [(ih (sizeOf rest) hrest).2.1 rest le_rfl inst strict _ p k hp hk]
        have hspec : sizeOf spec ≤ n := by
          simp only [List.cons.sizeOf_spec, Prod.mk.sizeOf_spec] at hds
          omega
        have hp2 : appendPath p f ≠ "" := by
          rw [appendPath_of_ne p f hp]
          exact append_dot_ne_empty p f
        have hk2 : ¬ pathUnder (appendPath p f) k := by
          rw [appendPath_of_ne p f hp]
          intro hu
          exact hk (pathUnder_mono p f k hu)
        exact hOne spec hspec (pyGet inst f) strict errors (appendPath p f) k hp2 hk2
  have hInst : ∀ s : Schema, sizeOf s ≤ n → ∀ inst strict errors p k, p ≠ "" →
      ¬ pathUnder p k →
      lookupKey (validateInstanceAgainstSchema inst s strict errors p) k
        = lookupKey errors k := by
    intro s hs inst strict errors p k hp hk
    have hnep : p ≠ k := fun he => hk (Or.inl he.symm)
    cases inst with
    | vDoc fields =>
        cases s with
        | mk ds st =>
            simp only [validateInstanceAgainstSchema]
            have hds : sizeOf ds ≤ n := by
              simp only [Schema.mk.sizeOf_spec] at hs
              omega
            rw [checkUnexpected_loc ds strict p k hp hk fields _]
            exact hFields ds hds fields strict errors p k hp hk
    | vNone =>
        simp only [validateInstanceAgainstSchema]
        exact lookupKey_setKey_ne _ _ _ _ hnep
    | vInt a =>
        simp only [validateInstanceAgainstSchema]
        exact lookupKey_setKey_ne _ _ _ _ hnep
    | vBool a =>
        simp only [validateInstanceAgainstSchema]
        exact lookupKey_setKey_ne _ _ _ _ hnep
    | vStr a =>
        simp only [validateInstanceAgainstSchema]
        exact lookupKey_setKey_ne _ _ _ _ hnep
    | vObjectId a =>
        simp only [validateInstanceAgainstSchema]
        exact lookupKey_setKey_ne _ _ _ _ hnep
    | vList xs =>
        simp only [validateInstanceAgainstSchema]
        exact lookupKey_setKey_ne _ _ _ _ hnep
  exact ⟨hInst, hFields, hOne, hValue, hItems⟩

theorem validateOneField_loc (sp : Spec) (value : Value) (strict : Bool)
    (errors : ErrMap) (path k : String) (hp : path ≠ "")
    (hk : ¬ pathUnder path k) :
    lookupKey (validateOneField value sp strict errors path) k
      = lookupKey errors k :=
  (validate_loc_aux (sizeOf sp)).2.2.1 sp le_rfl value strict errors path k hp hk

theorem checkUnexpected_preserves_declared (ds : List (String × Spec))
    (strict : Bool) (f : String) (hf : hasKey ds f = true) :
    ∀ (fields : List (String × Value)) (errors : ErrMap),
      lookupKey (checkUnexpected fields ds strict errors "") f
        = lookupKey errors f := by
  intro fields
  induction fields with
  | nil => intro errors; rfl
  | cons hd tl ih =>
      intro errors
      simp only [checkUnexpected, List.foldl_cons] at ih ⊢
      rw [ih]
      by_cases h1 : hasKey ds hd.1 = true
      · simp [h1]
      · have hne : appendPath "" hd.1 ≠ f := by
          rw [appendPath_empty_pfx]
          intro he
          rw [he] at h1
          exact h1 hf
        simp only [h1, Bool.false_eq_true, if_false]
        by_cases h2 : strict = true
        · simp only [h2, if_true]
          exact lookupKey_setKey_ne _ _ _ _ hne
        · simp [h2]

theorem validateValue_required_none (ft : FType) (dflt : Option Dflt)
    (vals : Option Validations) (strict : Bool) (errors : ErrMap)
    (path : String) :
    validateValue .vNone (.dictSpec ft (some true) dflt vals) strict errors path
      = storeErr errors path (path ++ " is required.") := by
  rw [validateValue.eq_def]
  simp [isNone]

theorem validateFields_top_preserves (f : String) (hdf : dotFree f) :
    ∀ ds : List (String × Spec), hasKey ds f = false → hasKey ds "" = false →
    ∀ (inst : List (String × Value)) (strict : Bool) (errors : ErrMap),
      lookupKey (validateFields inst ds strict errors "") f
        = lookupKey errors f := by
  intro ds
  induction ds with
  | nil => intro _ _ inst strict errors; simp [validateFields]
  | cons hd rest ih =>
      obtain ⟨g, spec⟩ := hd
      intro hnf hne inst strict errors
      have hgf : g ≠ f := by
        intro he
        rw [he] at hnf
        simp [hasKey, lookupKey] at hnf
      have hge : g ≠ "" := by
        intro he
        rw [he] at hne
        simp [hasKey, lookupKey] at hne
      have hnf2 : hasKey rest f = false := by
        simpa [hasKey, lookupKey, hgf] using hnf
      have hne2 : hasKey rest "" = false := by
        simpa [hasKey, lookupKey, hge] using hne
      simp only [validateFields]
      rw [ih hnf2 hne2 inst strict _]
      rw [appendPath_empty_pfx]
      exact validateOneField_loc spec (pyGet inst g) strict errors g f hge
        (not_pathUnder_of_dotFree g f (fun he => hgf he.symm) hdf)

theorem validateFields_required_found (f : String) (ft : FType)
    (vals : Option Validations) (hdf : dotFree f) :
    ∀ ds : List (String × Spec), nodupKeys ds = true → hasKey ds "" = false →
    lookupKey ds f = some (.dictSpec ft (some true) none vals) →
    ∀ (inst : List (String × Value)), lookupKey inst f = none →
    ∀ (strict : Bool) (errors : ErrMap),
      lookupKey (validateFields inst ds strict errors "") f
        = some (f ++ " is required.") := by
  intro ds
  induction ds with
  | nil => intro _ _ hsp; simp [lookupKey] at hsp
  | cons hd rest ih =>
      obtain ⟨g, spec⟩ := hd
      intro hnd hne hsp inst habs strict errors
      have hge : g ≠ "" := by
        intro he
        rw [he] at hne
        simp [hasKey, lookupKey] at hne
      have hne2 : hasKey rest "" = false := by
        simpa [hasKey, lookupKey, hge] using hne
      by_cases hgf : g = f
      · subst hgf
        have hspec : spec = .dictSpec ft (some true) none vals := by
          simpa [lookupKey] using hsp
        subst hspec
        have hnf2 : hasKey rest g = false := by
          simp only [nodupKeys, Bool.and_eq_true, Bool.not_eq_true'] at hnd
          exact hnd.1
        simp only [validateFields]
        rw [validateFields_top_preserves g hdf rest hnf2 hne2 inst strict _]
        rw [appendPath_empty_pfx]
        have hval : pyGet inst g = .vNone := by
          simp [pyGet, habs]
        simp only [validateOneField, hval]
        rw [validateValue_required_none]
        exact lookupKey_setKey_self _ _ _
      · have hsp2 : lookupKey rest f = some (.dictSpec ft (some true) none vals) := by
          simpa [lookupKey, hgf] using hsp
        have hnd2 : nodupKeys rest = true := by
          simp only [nodupKeys, Bool.and_eq_true] at hnd
          exact hnd.2
        simp only [validateFields]
        rw [ih hnd2 hne2 hsp2 inst habs strict _]

/-- Counterexample to claim C5 as stated: with schema {f: required int} and
instance {g: 1}, the error map contains the unexpected-field error for g in
addition to the required error for f, so it does not contain exactly the key
f. -/
theorem C5_counterexample_error_map_not_exact :
    validateInstanceAgainstSchema (.vDoc [("g", .vInt 1)])
        (mkSchema [("f", .dictSpec (.prim .tInt) (some true) none none)] true)
        true [] ""
      = [("f", "f is required."), ("g", "Unexpected document field not present in schema")]
    ∧ [("f", "f is required."), ("g", "Unexpected document field not present in schema")]
        ≠ [("f", "f is required.")] := by
  constructor
  · simp [mkSchema, idSpec, hasKey, lookupKey, validateInstanceAgainstSchema,
      validateFields, validateOneField, validateValue, checkUnexpected, pyGet,
      appendPath, storeErr, setKey, isNone, isinstance]
  · simp

/-- Claim C5 amended: for a schema field f (containing no dot, as Python
field names in practice do not; the schema's keys are duplicate-free as in
any Python dict and contain no empty name) declared required with no
default, validating an instance lacking f yields an error map CONTAINING
f mapped to "f is required." — other keys may also be present (e.g. for
other failing or unexpected fields), so "exactly" does not hold in general.
validate raises a ValidationException whose error map carries that entry. -/
theorem C5_required_field_error (ds : List (String × Spec)) (st : Bool)
    (I : List (String × Value)) (f : String) (ft : FType)
    (vals : Option Validations)
    (hnd : nodupKeys ds = true)
    (hne : hasKey ds "" = false)
    (hdf : dotFree f)
    (hspec : lookupKey ds f = some (.dictSpec ft (some true) none vals))
    (habs : lookupKey I f = none) :
    lookupKey (validateInstanceAgainstSchema (.vDoc I) (.mk ds st) st [] "") f
      = some (f ++ " is required.")
    ∧ ∃ E : ValidationException,
        validate (.mk ds st) (.vDoc I) = .error E
        ∧ lookupKey E.errors f = some (f ++ " is required.") := by
  have hhk : hasKey ds f = true := by simp [hasKey, hspec]
  have hmain : ∀ strict : Bool,
      lookupKey (validateInstanceAgainstSchema (.vDoc I) (.mk ds st) strict [] "") f
        = some (f ++ " is required.") := by
    intro strict
    simp only [validateInstanceAgainstSchema]
    rw [checkUnexpected_preserves_declared ds strict f hhk I _]
    exact validateFields_required_found f ft vals hdf ds hnd hne hspec I habs strict []
  refine ⟨hmain st, ?_⟩
  have hm := hmain st
  set M := validateInstanceAgainstSchema (.vDoc I) (.mk ds st) st [] "" with hM
  have hnonempty : M.length > 0 := by
    cases hMl : M with
    | nil => rw [hMl] at hm; simp [lookupKey] at hm
    | cons a l => simp [hMl]
  refine ⟨⟨M⟩, ?_, hm⟩
  simp only [validate, strictFlag, ← hM]
  rw [if_pos hnonempty]

/-- Witness for C5 amended: the spec's doors scenario — required int field,
empty instance. -/
theorem C5_required_field_error_witness :
    lookupKey (validateInstanceAgainstSchema (.vDoc [])
        (.mk [("doors", .dictSpec (.prim .tInt) (some true) none none)] true)
        true [] "") "doors"
      = some "doors is required." :=
  (C5_required_field_error [("doors", .dictSpec (.prim .tInt) (some true) none none)]
    true [] "doors" (.prim .tInt) none
    (by simp [nodupKeys, hasKey, lookupKey])
    (by simp [hasKey, lookupKey])
    (by unfold dotFree; decide)
    (by simp [lookupKey])
    (by simp [lookupKey])).1

theorem lookupKey_append_of_not_has (l1 l2 : List (String × α)) (k : String)
    (h : hasKey l1 k = false) :
    lookupKey (l1 ++ l2) k = lookupKey l2 k := by
  induction l1 with
  | nil => simp
  | cons hd tl ih =>
      obtain ⟨k1, v⟩ := hd
      have h1 : k1 ≠ k := by
        intro he
        rw [he] at h
        simp [hasKey, lookupKey] at h
      have h2 : hasKey tl k = false := by
        simpa [hasKey, lookupKey, h1] using h
      simp [lookupKey, h1, ih h2]

theorem hasKey_append (l1 l2 : List (String × α)) (k : String) :
    hasKey (l1 ++ l2) k = (hasKey l1 k || hasKey l2 k) := by
  induction l1 with
  | nil => simp [hasKey, lookupKey]
  | cons hd tl ih =>
      obtain ⟨k1, v⟩ := hd
      by_cases h1 : k1 = k
      · simp [hasKey, lookupKey, h1]
      · simpa [hasKey, lookupKey, h1] using ih

theorem validateFields_append (l1 l2 : List (String × Spec))
    (inst : List (String × Value)) (strict : Bool) (p : String) :
    ∀ errors : ErrMap,
      validateFields inst (l1 ++ l2) strict errors p
        = validateFields inst l2 strict (validateFields inst l1 strict errors p) p := by
  induction l1 with
  | nil => intro errors; simp [validateFields]
  | cons hd tl ih =>
      obtain ⟨f, spec⟩ := hd
      intro errors
      simp only [List.cons_append, validateFields]
      exact ih _

/-- Claim C9: a Schema constructed from a doc spec lacking an _id key gets
the spec type ObjectId silently added under _id; consequently an _id field
in an instance is never reported as unexpected even in strict mode, and a
present non-None _id that is not an ObjectId fails validation with a type
error recorded at _id. -/
theorem C9_id_field_injected (ds : List (String × Spec)) (st : Bool)
    (I : List (String × Value)) (v : Value)
    (hid : hasKey ds "_id" = false)
    (hv : lookupKey I "_id" = some v)
    (hnn : isNone v = false)
    (hnoid : isinstance v .tObjectId = false) :
    lookupKey (docSpecList (mkSchema ds st)) "_id" = some idSpec
    ∧ (∀ (fields : List (String × Value)) (errors : ErrMap) (strict : Bool),
        lookupKey (checkUnexpected fields (docSpecList (mkSchema ds st)) strict errors "") "_id"
          = lookupKey errors "_id")
    ∧ (∀ strict : Bool,
        lookupKey (validateInstanceAgainstSchema (.vDoc I) (mkSchema ds st) strict [] "") "_id"
          = some ("Field should be of type " ++ typeRepr .tObjectId))
    ∧ (∃ E : ValidationException,
        validate (mkSchema ds st) (.vDoc I) = .error E
        ∧ lookupKey E.errors "_id" = some ("Field should be of type " ++ typeRepr .tObjectId)) := by
  have hmk : mkSchema ds st = .mk (ds ++ [("_id", idSpec)]) st := by
    simp [mkSchema, hid]
  have hds2 : docSpecList (mkSchema ds st) = ds ++ [("_id", idSpec)] := by
    rw [hmk]; rfl
  have hlook : lookupKey (ds ++ [("_id", idSpec)]) "_id" = some idSpec := by
    rw [lookupKey_append_of_not_has ds _ "_id" hid]
    simp [lookupKey]
  have hhk : hasKey (ds ++ [("_id", idSpec)]) "_id" = true := by
    simp [hasKey, hlook]
  have hmain : ∀ strict : Bool,
      lookupKey (validateInstanceAgainstSchema (.vDoc I) (mkSchema ds st) strict [] "") "_id"
        = some ("Field should be of type " ++ typeRepr .tObjectId) := by
    intro strict
    rw [hmk]
    simp only [validateInstanceAgainstSchema]
    rw [checkUnexpected_preserves_declared _ strict "_id" hhk I _]
    rw [validateFields_append ds [("_id", idSpec)] I strict "" []]
    simp only [validateFields]
    rw [appendPath_empty_pfx]
    have hval : pyGet I "_id" = v := by simp [pyGet, hv]
    simp only [validateOneField, idSpec, hval]
    rw [validateValue.eq_def]
    simp only [hnn, Bool.false_eq_true, if_false, hnoid, Bool.not_false, if_true]
    exact lookupKey_setKey_self _ _ _
  refine ⟨by rw [hds2]; exact hlook, ?_, hmain, ?_⟩
  · intro fields errors strict
    rw [hds2]
    exact checkUnexpected_preserves_declared _ strict "_id" hhk fields errors
  · have hm := hmain (strictFlag (mkSchema ds st))
    set M := validateInstanceAgainstSchema (.vDoc I) (mkSchema ds st)
      (strictFlag (mkSchema ds st)) [] "" with hM
    have hnonempty : M.length > 0 := by
      cases hMl : M with
      | nil => rw [hMl] at hm; simp [lookupKey] at hm
      | cons a l => simp [hMl]
    refine ⟨⟨M⟩, ?_, hm⟩
    simp only [validate, ← hM]
    rw [if_pos hnonempty]

/-- Witness for C9: a schema with one string field and an instance whose _id
is the integer 5. -/
theorem C9_id_field_injected_witness :
    lookupKey (validateInstanceAgainstSchema
        (.vDoc [("name", .vStr "bob"), ("_id", .vInt 5)])
        (mkSchema [("name", .dictSpec (.prim .tStr) none none none)] true)
        true [] "") "_id"
      = some ("Field should be of type " ++ typeRepr .tObjectId) :=
  ((C9_id_field_injected [("name", .dictSpec (.prim .tStr) none none none)] true
    [("name", .vStr "bob"), ("_id", .vInt 5)] (.vInt 5)
    (by simp [hasKey, lookupKey])
    (by simp [lookupKey])
    (by simp [isNone])
    (by simp [isinstance])).2.2.1) true

theorem removeKey_setKey (l : List (String × α)) (k : String) (v : α) :
    removeKey (setKey l k v) k = removeKey l k := by
  induction l with
  | nil => simp [setKey, removeKey]
  | cons hd tl ih =>
      obtain ⟨k1, w⟩ := hd
      by_cases h : k1 = k
      · simp [setKey, removeKey, h]
      · simp [setKey, removeKey, h, ih]

theorem pyGet_setKey_vNone (I : List (String × Value)) (f g : String) :
    pyGet (setKey I f .vNone) g = pyGet (removeKey I f) g := by
  by_cases h : f = g
  · subst h
    simp [pyGet, lookupKey_setKey_self, lookupKey_removeKey_self]
  · simp [pyGet, lookupKey_setKey_ne I f g _ h, lookupKey_removeKey_ne I f g h]

theorem validateFields_congr (inst1 inst2 : List (String × Value))
    (hpg : ∀ g, pyGet inst1 g = pyGet inst2 g) :
    ∀ (ds : List (String × Spec)) (strict : Bool) (errors : ErrMap) (p : String),
      validateFields inst1 ds strict errors p
        = validateFields inst2 ds strict errors p := by
  intro ds
  induction ds with
  | nil => intro strict errors p; simp [validateFields]
  | cons hd tl ih =>
      obtain ⟨f, spec⟩ := hd
      intro strict errors p
      simp only [validateFields]
      rw [hpg f, ih]

theorem checkUnexpected_skip_declared (ds : List (String × Spec)) (f : String)
    (hf : hasKey ds f = true) :
    ∀ (fields : List (String × Value)) (strict : Bool) (errors : ErrMap)
      (p : String),
      checkUnexpected fields ds strict errors p
        = checkUnexpected (removeKey fields f) ds strict errors p := by
  intro fields
  induction fields with
  | nil => intro strict errors p; simp [removeKey]
  | cons hd tl ih =>
      obtain ⟨k1, v⟩ := hd
      intro strict errors p
      by_cases h : k1 = f
      · subst h
        simp only [removeKey, if_pos rfl]
        simp only [checkUnexpected, List.foldl_cons]
        rw [hf]
        simp only [if_true]
        exact ih strict errors p
      · simp only [removeKey, if_neg h]
        simp only [checkUnexpected, List.foldl_cons]
        exact ih strict _ p

/-- Claim C10: validate treats a declared field explicitly present with
value None exactly like an absent field — the whole validation run produces
the identical error map either way; in particular the required error fires
for a None-valued required field and no type check or validators run for it.
-/
theorem C10_none_is_absent (ds : List (String × Spec)) (st strict : Bool)
    (I : List (String × Value)) (f : String) (errors : ErrMap) (p : String)
    (hf : hasKey ds f = true) :
    validateInstanceAgainstSchema (.vDoc (setKey I f .vNone)) (.mk ds st)
        strict errors p
      = validateInstanceAgainstSchema (.vDoc (removeKey I f)) (.mk ds st)
          strict errors p
    ∧ (∀ (ft : FType) (dflt : Option Dflt) (vals : Option Validations)
        (path : String) (e : ErrMap),
        validateValue .vNone (.dictSpec ft (some true) dflt vals) strict e path
          = storeErr e path (path ++ " is required."))
    ∧ (∀ (ft : FType) (dflt : Option Dflt) (vals : Option Validations)
        (path : String) (e : ErrMap),
        validateValue .vNone (.dictSpec ft none dflt vals) strict e path = e) := by
  refine ⟨?_, ?_, ?_⟩
  · simp only [validateInstanceAgainstSchema]
    rw [validateFields_congr (setKey I f .vNone) (removeKey I f)
          (pyGet_setKey_vNone I f) ds strict errors p]
    rw [checkUnexpected_skip_declared ds f hf (setKey I f .vNone) strict _ p]
    rw [removeKey_setKey]
  · intro ft dflt vals path e
    exact validateValue_required_none ft dflt vals strict e path
  · intro ft dflt vals path e
    rw [validateValue.eq_def]
    simp [isNone]

/-- Witness for C10: schema {f: required int} with instance {f: None} versus
instance {} give the same error map. -/
theorem C10_none_is_absent_witness :
    validateInstanceAgainstSchema (.vDoc (setKey [] "f" .vNone))
        (.mk [("f", .dictSpec (.prim .tInt) (some true) none none)] true)
        true [] ""
      = validateInstanceAgainstSchema (.vDoc (removeKey [] "f"))
          (.mk [("f", .dictSpec (.prim .tInt) (some true) none none)] true)
          true [] "" :=
  (C10_none_is_absent [("f", .dictSpec (.prim .tInt) (some true) none none)]
    true true [] "f" [] "" (by simp [hasKey, lookupKey])).1

theorem applyFieldDefault_char (f : String) (sp : Spec)
    (X : List (String × Value)) :
    applyFieldDefault f sp X
      = match stepVal sp (lookupKey X f) with
        | some a => setKey X f a
        | none => X := by
  rw [applyFieldDefault.eq_def]
  cases hl : lookupKey X f with
  | none =>
      cases sp with
      | junk => simp [applyAbsentDefault, stepVal]
      | listSpec elems => simp [applyAbsentDefault, stepVal]
      | dictSpec ft req d vals =>
          cases d with
          | none => simp [applyAbsentDefault, stepVal]
          | some d0 => simp [applyAbsentDefault, stepVal]
  | some v =>
      cases sp with
      | junk => cases v <;> simp [applyPresentField, stepVal]
      | dictSpec ft req d vals =>
          cases ft with
          | prim t => cases v <;> simp [applyPresentField, stepVal]
          | schema s1 => cases v <;> simp [applyPresentField, stepVal]
      | listSpec elems =>
          cases elems with
          | nil => cases v <;> simp [applyPresentField, stepVal]
          | cons e r2 =>
              cases e with
              | sch s1 => cases v <;> simp [applyPresentField, stepVal]
              | ty t => cases v <;> simp [applyPresentField, stepVal]
              | junk => cases v <;> simp [applyPresentField, stepVal]

theorem applyFieldDefault_lookup_ne (f : String) (sp : Spec)
    (X : List (String × Value)) (k : String) (hk : f ≠ k) :
    lookupKey (applyFieldDefault f sp X) k = lookupKey X k := by
  rw [applyFieldDefault_char]
  cases stepVal sp (lookupKey X f) with
  | none => rfl
  | some a => exact lookupKey_setKey_ne _ _ _ _ hk

theorem applyFieldDefault_hasKey_self (f : String) (sp : Spec)
    (X : List (String × Value)) (h : hasKey X f = true) :
    hasKey (applyFieldDefault f sp X) f = true := by
  rw [applyFieldDefault_char]
  cases stepVal sp (lookupKey X f) with
  | none => exact h
  | some a => exact hasKey_setKey_self _ _ _

theorem applyDefaultsFields_lookup_notin (f : String) :
    ∀ ds : List (String × Spec), hasKey ds f = false →
    ∀ X : List (String × Value),
      lookupKey (applyDefaultsFields ds X) f = lookupKey X f := by
  intro ds
  induction ds with
  | nil => intro _ X; simp [applyDefaultsFields]
  | cons hd rest ih =>
      obtain ⟨g, sp⟩ := hd
      intro hnf X
      have hgf : g ≠ f := by
        intro he
        rw [he] at hnf
        simp [hasKey, lookupKey] at hnf
      have hnf2 : hasKey rest f = false := by
        simpa [hasKey, lookupKey, hgf] using hnf
      simp only [applyDefaultsFields]
      rw [ih hnf2, applyFieldDefault_lookup_ne g sp X f hgf]

theorem applyFieldDefault_comm (f g : String) (sp sp2 : Spec)
    (X : List (String × Value)) (hne : f ≠ g) (hm : hasKey X f = true) :
    applyFieldDefault f sp (applyFieldDefault g sp2 X)
      = applyFieldDefault g sp2 (applyFieldDefault f sp X) := by
  have hlf : lookupKey (applyFieldDefault g sp2 X) f = lookupKey X f :=
    applyFieldDefault_lookup_ne g sp2 X f (Ne.symm hne)
  have hlg : lookupKey (applyFieldDefault f sp X) g = lookupKey X g :=
    applyFieldDefault_lookup_ne f sp X g hne
  rw [applyFieldDefault_char f sp (applyFieldDefault g sp2 X), hlf,
      applyFieldDefault_char g sp2 (applyFieldDefault f sp X), hlg,
      applyFieldDefault_char g sp2 X, applyFieldDefault_char f sp X]
  cases ha : stepVal sp (lookupKey X f) with
  | none =>
      cases hb : stepVal sp2 (lookupKey X g) with
      | none => rfl
      | some b => rfl
  | some a =>
      cases hb : stepVal sp2 (lookupKey X g) with
      | none => rfl
      | some b => exact setKey_comm_of_hasKey X f g a b hm hne

theorem applyFieldDefault_comm_fields (f : String) (sp : Spec) :
    ∀ ds : List (String × Spec), hasKey ds f = false →
    ∀ X : List (String × Value), hasKey X f = true →
      applyFieldDefault f sp (applyDefaultsFields ds X)
        = applyDefaultsFields ds (applyFieldDefault f sp X) := by
  intro ds
  induction ds with
  | nil => intro _ X _; simp [applyDefaultsFields]
  | cons hd rest ih =>
      obtain ⟨g, sp2⟩ := hd
      intro hnf X hm
      have hgf : g ≠ f := by
        intro he
        rw [he] at hnf
        simp [hasKey, lookupKey] at hnf
      have hnf2 : hasKey rest f = false := by
        simpa [hasKey, lookupKey, hgf] using hnf
      have hm2 : hasKey (applyFieldDefault g sp2 X) f = true := by
        unfold hasKey
        rw [applyFieldDefault_lookup_ne g sp2 X f hgf]
        exact hm
      simp only [applyDefaultsFields]
      rw [ih hnf2 (applyFieldDefault g sp2 X) hm2]
      rw [applyFieldDefault_comm f g sp sp2 X (Ne.symm hgf) hm]

theorem applyItemsDefaults_idem (s1 : Schema)
    (hidem : ∀ d, applySchemaDefaults s1 (applySchemaDefaults s1 d)
        = applySchemaDefaults s1 d) :
    ∀ items, applyItemsDefaults s1 (applyItemsDefaults s1 items)
      = applyItemsDefaults s1 items := by
  intro items
  induction items with
  | nil => simp [applyItemsDefaults]
  | cons item rest ih =>
      cases item <;> simp [applyItemsDefaults, ih, hidem]

theorem stepVal_stable (sp : Spec)
    (hschema : ∀ s1 req d vals, sp = .dictSpec (.schema s1) req d vals →
        d = none ∧ ∀ dd, applySchemaDefaults s1 (applySchemaDefaults s1 dd)
          = applySchemaDefaults s1 dd)
    (hlist : ∀ s1 r2, sp = .listSpec (.sch s1 :: r2) →
        ∀ dd, applySchemaDefaults s1 (applySchemaDefaults s1 dd)
          = applySchemaDefaults s1 dd) :
    ∀ (ov : Option Value) (a : Value), stepVal sp ov = some a →
      stepVal sp (some a) = some a ∨ stepVal sp (some a) = none := by
  intro ov a hsv
  cases ov with
  | none =>
      cases sp with
      | junk => simp [stepVal] at hsv
      | listSpec elems => simp [stepVal] at hsv
      | dictSpec ft req d vals =>
          cases d with
          | none => simp [stepVal] at hsv
          | some d0 =>
              cases ft with
              | prim t =>
                  right
                  cases a <;> simp [stepVal]
              | schema s1 =>
                  have := (hschema s1 req (some d0) vals rfl).1
                  simp at this
  | some v =>
      cases sp with
      | junk => cases v <;> simp [stepVal] at hsv
      | dictSpec ft req d vals =>
          cases ft with
          | prim t => cases v <;> simp [stepVal] at hsv
          | schema s1 =>
              cases v with
              | vDoc dd =>
                  left
                  obtain rfl : a = Value.vDoc (applySchemaDefaults s1 dd) := by
                    simpa [stepVal] using hsv.symm
                  simp [stepVal, (hschema s1 req d vals rfl).2 dd]
              | vNone => simp [stepVal] at hsv
              | vInt x => simp [stepVal] at hsv
              | vBool x => simp [stepVal] at hsv
              | vStr x => simp [stepVal] at hsv
              | vObjectId x => simp [stepVal] at hsv
              | vList xs => simp [stepVal] at hsv
      | listSpec elems =>
          cases elems with
          | nil => cases v <;> simp [stepVal] at hsv
          | cons e r2 =>
              cases e with
              | sch s1 =>
                  cases v with
                  | vList items =>
                      left
                      obtain rfl : a = Value.vList (applyItemsDefaults s1 items) := by
                        simpa [stepVal] using hsv.symm
                      simp [stepVal,
                        applyItemsDefaults_idem s1 (hlist s1 r2 rfl) items]
                  | vNone => simp [stepVal] at hsv
                  | vInt x => simp [stepVal] at hsv
                  | vBool x => simp [stepVal] at hsv
                  | vStr x => simp [stepVal] at hsv
                  | vObjectId x => simp [stepVal] at hsv
                  | vDoc dd => simp [stepVal] at hsv
              | ty t => cases v <;> simp [stepVal] at hsv
              | junk => cases v <;> simp [stepVal] at hsv

theorem applyFieldDefault_idem (f : String) (sp : Spec)
    (hschema : ∀ s1 req d vals, sp = .dictSpec (.schema s1) req d vals →
        d = none ∧ ∀ dd, applySchemaDefaults s1 (applySchemaDefaults s1 dd)
          = applySchemaDefaults s1 dd)
    (hlist : ∀ s1 r2, sp = .listSpec (.sch s1 :: r2) →
        ∀ dd, applySchemaDefaults s1 (applySchemaDefaults s1 dd)
          = applySchemaDefaults s1 dd)
    (X : List (String × Value)) :
    applyFieldDefault f sp (applyFieldDefault f sp X) = applyFieldDefault f sp X := by
  rw [applyFieldDefault_char f sp X]
  cases ha : stepVal sp (lookupKey X f) with
  | none => rw [applyFieldDefault_char f sp X, ha]
  | some a =>
      rw [applyFieldDefault_char f sp (setKey X f a), lookupKey_setKey_self]
      rcases stepVal_stable sp hschema hlist (lookupKey X f) a ha with h2 | h2
      · rw [h2]
        exact setKey_setKey_same X f a a
      · rw [h2]

theorem verifyFieldsM_cons_dict (f : String) (ft : FType) (req : Option Bool)
    (d : Option Dflt) (vals : Option Validations) (rest : List (String × Spec))
    (pfx : String)
    (h : verifyFieldsM ((f, .dictSpec ft req d vals) :: rest) pfx = .ok ()) :
    verifyFieldSpecM ft req d vals (appendPath pfx f) = .ok ()
    ∧ verifyFieldsM rest pfx = .ok () := by
  rw [verifyFieldsM.eq_def] at h
  simp only at h
  cases hv : verifyFieldSpecM ft req d vals (appendPath pfx f) with
  | error e => rw [hv] at h; simp at h
  | ok u =>
      cases u
      rw [hv] at h
      exact ⟨rfl, h⟩

theorem verifyFieldsM_cons_list (f : String) (elems : List LElem)
    (rest : List (String × Spec)) (pfx : String)
    (h : verifyFieldsM ((f, .listSpec elems) :: rest) pfx = .ok ()) :
    verifyFieldsM rest pfx = .ok ()
    ∧ (∀ (s1 : Schema) (r2 : List LElem), elems = .sch s1 :: r2 →
        verifySchemaM s1 (appendPath pfx f) = .ok ()) := by
  rw [verifyFieldsM.eq_def] at h
  simp only at h
  by_cases hlen : elems.length = 0 ∨ elems.length > 1
  · rw [if_pos hlen] at h
    simp at h
  · rw [if_neg hlen] at h
    cases elems with
    | nil => simp at hlen
    | cons e r2 =>
        cases e with
        | sch s1 =>
            simp only at h
            cases hv : verifySchemaM s1 (appendPath pfx f) with
            | error er => rw [hv] at h; simp at h
            | ok u =>
                cases u
                rw [hv] at h
                refine ⟨h, ?_⟩
                rintro s2 r3 he
                obtain ⟨rfl, rfl⟩ : s2 = s1 ∧ r3 = r2 := by
                  have h1 := List.head_eq_of_cons_eq he.symm
                  have h2 := List.tail_eq_of_cons_eq he.symm
                  refine ⟨?_, h2⟩
                  cases h1
                  rfl
                exact hv
        | ty t =>
            simp only at h
            refine ⟨h, ?_⟩
            rintro s2 r3 he
            simp at he
        | junk =>
            simp only at h
            refine ⟨h, ?_⟩
            rintro s2 r3 he
            simp at he

theorem verifyFieldsM_cons_junk (f : String) (rest : List (String × Spec))
    (pfx : String) :
    verifyFieldsM ((f, .junk) :: rest) pfx = .ok () → False := by
  intro h
  rw [verifyFieldsM.eq_def] at h
  simp at h

theorem verifyFieldSpecM_schema (s1 : Schema) (req : Option Bool)
    (d : Option Dflt) (vals : Option Validations) (path : String)
    (h : verifyFieldSpecM (.schema s1) req d vals path = .ok ()) :
    d = none ∧ verifySchemaM s1 path = .ok () := by
  rw [verifyFieldSpecM.eq_def] at h
  simp only at h
  by_cases hd : d.isSome = true ∨ vals.isSome = true
  · rw [if_pos hd] at h
    simp at h
  · rw [if_neg hd] at h
    push_neg at hd
    refine ⟨?_, h⟩
    cases d with
    | none => rfl
    | some d0 => simp at hd

theorem applyDefaultsFields_idem_of (n : Nat)
    (IH : ∀ s1 : Schema, sizeOf s1 < n → ∀ pfx, verifySchemaM s1 pfx = .ok () →
        nodupDeep s1 = true →
        ∀ d, applySchemaDefaults s1 (applySchemaDefaults s1 d)
          = applySchemaDefaults s1 d) :
    ∀ ds : List (String × Spec), sizeOf ds < n → ∀ pfx,
      verifyFieldsM ds pfx = .ok () → nodupKeys ds = true →
      nodupDeepFields ds = true →
      ∀ X, applyDefaultsFields ds (applyDefaultsFields ds X)
        = applyDefaultsFields ds X := by
  intro ds
  induction ds with
  | nil => intro _ _ _ _ _ X; simp [applyDefaultsFields]
  | cons hd rest ih =>
      obtain ⟨f, sp⟩ := hd
      intro hsz pfx hver hnd hdeep X
      have hszrest : sizeOf rest < n := by
        simp only [List.cons.sizeOf_spec] at hsz
        omega
      have hndr : nodupKeys rest = true := by
        simp only [nodupKeys, Bool.and_eq_true] at hnd
        exact hnd.2
      have hnotin : hasKey rest f = false := by
        simp only [nodupKeys, Bool.and_eq_true, Bool.not_eq_true'] at hnd
        exact hnd.1
      have hdeepr : nodupDeepSpec sp = true ∧ nodupDeepFields rest = true := by
        rw [nodupDeepFields.eq_def] at hdeep
        simp only [Bool.and_eq_true] at hdeep
        exact hdeep
      have hverrest : verifyFieldsM rest pfx = .ok () := by
        cases sp with
        | dictSpec ft req d vals =>
            exact (verifyFieldsM_cons_dict f ft req d vals rest pfx hver).2
        | listSpec elems =>
            exact (verifyFieldsM_cons_list f elems rest pfx hver).1
        | junk => exact (verifyFieldsM_cons_junk f rest pfx hver).elim
      have hschema : ∀ s1 req d vals, sp = .dictSpec (.schema s1) req d vals →
          d = none ∧ ∀ dd, applySchemaDefaults s1 (applySchemaDefaults s1 dd)
            = applySchemaDefaults s1 dd := by
        rintro s1 req d vals rfl
        have hd := (verifyFieldsM_cons_dict f _ req d vals rest pfx hver).1
        have hex := verifyFieldSpecM_schema s1 req d vals _ hd
        refine ⟨hex.1, ?_⟩
        intro dd
        have hs1 : sizeOf s1 < n := by
          simp only [List.cons.sizeOf_spec, Prod.mk.sizeOf_spec,
            Spec.dictSpec.sizeOf_spec, FType.schema.sizeOf_spec] at hsz
          omega
        have hnd1 : nodupDeep s1 = true := by
          have h0 := hdeepr.1
          rw [nodupDeepSpec.eq_def] at h0
          simp only at h0
          exact h0
        exact IH s1 hs1 _ hex.2 hnd1 dd
      have hlist : ∀ s1 r2, sp = .listSpec (.sch s1 :: r2) →
          ∀ dd, applySchemaDefaults s1 (applySchemaDefaults s1 dd)
            = applySchemaDefaults s1 dd := by
        rintro s1 r2 rfl
        have hs := (verifyFieldsM_cons_list f _ rest pfx hver).2 s1 r2 rfl
        intro dd
        have hs1 : sizeOf s1 < n := by
          simp only [List.cons.sizeOf_spec, Prod.mk.sizeOf_spec,
            Spec.listSpec.sizeOf_spec, LElem.sch.sizeOf_spec] at hsz
          omega
        have hnd1 : nodupDeep s1 = true := by
          have h0 := hdeepr.1
          rw [nodupDeepSpec.eq_def] at h0
          simp only at h0
          rw [nodupDeepElems.eq_def] at h0
          simp only [Bool.and_eq_true] at h0
          exact h0.1
        exact IH s1 hs1 _ hs hnd1 dd
      simp only [applyDefaultsFields]
      by_cases hmY : hasKey (applyFieldDefault f sp X) f = true
      · rw [applyFieldDefault_comm_fields f sp rest hnotin
              (applyFieldDefault f sp X) hmY]
        rw [applyFieldDefault_idem f sp hschema hlist X]
        exact ih hszrest pfx hverrest hndr hdeepr.2 (applyFieldDefault f sp X)
      · have hstep : applyFieldDefault f sp X = X := by
          rw [applyFieldDefault_char]
          cases hsv : stepVal sp (lookupKey X f) with
          | none => rfl
          | some a =>
              exfalso
              apply hmY
              rw [applyFieldDefault_char, hsv]
              exact hasKey_setKey_self X f a
        have hmX : hasKey X f = false := by
          rw [hstep] at hmY
          cases h : hasKey X f with
          | false => rfl
          | true => exact absurd h hmY
        have hlX : lookupKey X f = none := by
          cases h : lookupKey X f with
          | none => rfl
          | some v =>
              rw [hasKey, h] at hmX
              simp at hmX
        have hsv0 : stepVal sp none = none := by
          cases hsv : stepVal sp none with
          | none => rfl
          | some a =>
              exfalso
              apply hmY
              rw [applyFieldDefault_char, hlX, hsv]
              exact hasKey_setKey_self X f a
        rw [hstep]
        have hl2 : lookupKey (applyDefaultsFields rest X) f = none := by
          rw [applyDefaultsFields_lookup_notin f rest hnotin X]
          exact hlX
        have hstep2 : applyFieldDefault f sp (applyDefaultsFields rest X)
            = applyDefaultsFields rest X := by
          rw [applyFieldDefault_char, hl2, hsv0]
        rw [hstep2]
        exact ih hszrest pfx hverrest hndr hdeepr.2 X

theorem applyDefaults_idem_aux : ∀ n : Nat, ∀ s : Schema, sizeOf s ≤ n →
    ∀ pfx, verifySchemaM s pfx = .ok () → nodupDeep s = true →
    ∀ inst, applySchemaDefaults s (applySchemaDefaults s inst)
      = applySchemaDefaults s inst := by
  intro n
  induction n using Nat.strong_induction_on with
  | _ n ih =>
  intro s hs pfx hver hnd inst
  cases s with
  | mk ds st =>
      simp only [applySchemaDefaults]
      have hver2 : verifyFieldsM ds pfx = .ok () := by
        simpa [verifySchemaM] using hver
      have hnd2 : nodupKeys ds = true ∧ nodupDeepFields ds = true := by
        rw [nodupDeep.eq_def] at hnd
        simp only [Bool.and_eq_true] at hnd
        exact hnd
      have hds : sizeOf ds < n := by
        simp only [Schema.mk.sizeOf_spec] at hs
        omega
      exact applyDefaultsFields_idem_of n
        (fun s1 h1 pfx1 hv1 hn1 d => ih (sizeOf s1) (lt_of_lt_of_le h1 (by
          simp only [Schema.mk.sizeOf_spec] at hs
          omega)) s1 le_rfl pfx1 hv1 hn1 d)
        ds hds pfx hver2 hnd2.1 hnd2.2 inst

theorem applyDefaultsFields_lookup_found (f : String) :
    ∀ ds : List (String × Spec), nodupKeys ds = true →
    ∀ sp : Spec, lookupKey ds f = some sp →
    ∀ X : List (String × Value),
      lookupKey (applyDefaultsFields ds X) f
        = (match stepVal sp (lookupKey X f) with
           | some a => some a
           | none => lookupKey X f) := by
  intro ds
  induction ds with
  | nil => intro _ sp hsp; simp [lookupKey] at hsp
  | cons hd rest ih =>
      obtain ⟨g, sp2⟩ := hd
      intro hnd sp hsp X
      by_cases hgf : g = f
      · subst hgf
        have hsp2 : sp2 = sp := by simpa [lookupKey] using hsp
        subst hsp2
        have hnotin : hasKey rest g = false := by
          simp only [nodupKeys, Bool.and_eq_true, Bool.not_eq_true'] at hnd
          exact hnd.1
        simp only [applyDefaultsFields]
        rw [applyDefaultsFields_lookup_notin g rest hnotin]
        rw [applyFieldDefault_char]
        cases hsv : stepVal sp2 (lookupKey X g) with
        | none => rfl
        | some a => exact lookupKey_setKey_self X g a
      · have hsp2 : lookupKey rest f = some sp := by
          simpa [lookupKey, hgf] using hsp
        have hndr : nodupKeys rest = true := by
          simp only [nodupKeys, Bool.and_eq_true] at hnd
          exact hnd.2
        simp only [applyDefaultsFields]
        rw [ih hndr sp hsp2]
        rw [applyFieldDefault_lookup_ne g sp2 X f hgf]

/-- Claim C3 amended: for a schema accepted by mongothon's verify (with
duplicate-free field names, automatic for Python dicts), apply_defaults is
idempotent; a present field with a primitive-typed spec is never overwritten
(even when its value equals the declared default); and a default is assigned
exactly to an absent field, the callable default invoked with zero arguments
and a literal assigned as-is.  (Without the verify hypothesis the claim
fails: see the counterexample with a default on a nested-Schema-typed
field.) -/
theorem C3_apply_defaults_idempotent (S : Schema)
    (hver : verifySchemaM S "" = .ok ()) (hnd : nodupDeep S = true) :
    (∀ inst, applySchemaDefaults S (applySchemaDefaults S inst)
        = applySchemaDefaults S inst)
    ∧ (∀ (f : String) (t : PyType) (req : Option Bool) (dd : Option Dflt)
        (vals : Option Validations) (inst : List (String × Value)) (v : Value),
        lookupKey (docSpecList S) f = some (.dictSpec (.prim t) req dd vals) →
        lookupKey inst f = some v →
        lookupKey (applySchemaDefaults S inst) f = some v)
    ∧ (∀ (f : String) (ft : FType) (req : Option Bool) (d0 : Dflt)
        (vals : Option Validations) (inst : List (String × Value)),
        lookupKey (docSpecList S) f = some (.dictSpec ft req (some d0) vals) →
        lookupKey inst f = none →
        lookupKey (applySchemaDefaults S inst) f = some (evalDefault d0)) := by
  obtain ⟨ds, st⟩ := S
  have hndk : nodupKeys ds = true := by
    rw [nodupDeep.eq_def] at hnd
    simp only [Bool.and_eq_true] at hnd
    exact hnd.1
  refine ⟨?_, ?_, ?_⟩
  · intro inst
    exact applyDefaults_idem_aux (sizeOf (Schema.mk ds st)) (.mk ds st) le_rfl
      "" hver hnd inst
  · intro f t req dd vals inst v hsp hv
    simp only [applySchemaDefaults]
    rw [applyDefaultsFields_lookup_found f ds hndk _ hsp inst]
    rw [hv]
    simp [stepVal]
  · intro f ft req d0 vals inst hsp habs
    simp only [applySchemaDefaults]
    rw [applyDefaultsFields_lookup_found f ds hndk _ hsp inst]
    rw [habs]
    simp [stepVal]

/-- Witness for C3 amended: the spec's doors schema (required int, default
4), a present instance value 2 untouched, and an absent field receiving the
default 4; defaulting the empty instance twice equals defaulting it once. -/
theorem C3_apply_defaults_idempotent_witness :
    (applySchemaDefaults
        (.mk [("doors", .dictSpec (.prim .tInt) (some true) (some (.lit (.vInt 4))) none)] true)
        (applySchemaDefaults
          (.mk [("doors", .dictSpec (.prim .tInt) (some true) (some (.lit (.vInt 4))) none)] true)
          [])
      = applySchemaDefaults
          (.mk [("doors", .dictSpec (.prim .tInt) (some true) (some (.lit (.vInt 4))) none)] true)
          [])
    ∧ lookupKey (applySchemaDefaults
        (.mk [("doors", .dictSpec (.prim .tInt) (some true) (some (.lit (.vInt 4))) none)] true)
        [("doors", .vInt 2)]) "doors" = some (.vInt 2)
    ∧ lookupKey (applySchemaDefaults
        (.mk [("doors", .dictSpec (.prim .tInt) (some true) (some (.lit (.vInt 4))) none)] true)
        []) "doors" = some (.vInt 4) := by
  have h := C3_apply_defaults_idempotent
    (.mk [("doors", .dictSpec (.prim .tInt) (some true) (some (.lit (.vInt 4))) none)] true)
    (by simp [verifySchemaM, verifyFieldsM, verifyFieldSpecM, appendPath, isinstance])
    (by simp [nodupDeep, nodupDeepFields, nodupDeepSpec, nodupKeys, hasKey,
          lookupKey])
  refine ⟨h.1 [], ?_, ?_⟩
  · exact h.2.1 "doors" .tInt (some true) (some (.lit (.vInt 4))) none
      [("doors", .vInt 2)] (.vInt 2) (by simp [docSpecList, lookupKey])
      (by simp [lookupKey])
  · exact h.2.2 "doors" (.prim .tInt) (some true) (.lit (.vInt 4)) none []
      (by simp [docSpecList, lookupKey]) (by simp [lookupKey])
